import Mathlib

/-!
# Truth tables of Boolean functions of up to six variables

A shallow embedding of `src/truth_table.hpp`.

* `uint8_t`, `uint32_t` and `uint64_t` values are natural numbers; wrap-around
  is written out (`% 2 ^ 64`, `% 256`) where the C++ operation can overflow.
* A member function that can hit an `assert` or undefined behaviour (an array
  read past its end, a shift by 64 or more) returns `Option`; `none` stands for
  the run that does not return a value.
* `std::string` is `String`, read through its list of characters.
-/

namespace BDD

/-! ## Constant tables -/

/-- Masks used to filter out unused bits (`length_mask[]`, 7 entries). -/
def length_mask : List Nat :=
  [0x0000000000000001, 0x0000000000000003, 0x000000000000000f, 0x00000000000000ff,
   0x000000000000ffff, 0x00000000ffffffff, 0xffffffffffffffff]

/-- Masks used to get the bits where a certain variable is 1 (`var_mask_pos[]`, 6 entries). -/
def var_mask_pos : List Nat :=
  [0xaaaaaaaaaaaaaaaa, 0xcccccccccccccccc, 0xf0f0f0f0f0f0f0f0, 0xff00ff00ff00ff00,
   0xffff0000ffff0000, 0xffffffff00000000]

/-- Masks used to get the bits where a certain variable is 0 (`var_mask_neg[]`, 6 entries). -/
def var_mask_neg : List Nat :=
  [0x5555555555555555, 0x3333333333333333, 0x0f0f0f0f0f0f0f0f, 0x00ff00ff00ff00ff,
   0x0000ffff0000ffff, 0x00000000ffffffff]

/-! ## Machine arithmetic -/

/-- Bitwise complement of a `uint64_t` (the C++ `~` on a 64-bit word). -/
def not64 (x : Nat) : Nat := 2 ^ 64 - 1 - x % 2 ^ 64

/-- Conversion of an `int` to `int8_t` (two's complement wrap-around). -/
def toInt8 (x : Int) : Int := (x + 128) % 256 - 128

/-- The `switch` of `power_two`, reached when `n <= 64`. -/
def power_two_switch (n : Nat) : Nat :=
  if n = 2 then 1
  else if n = 4 then 2
  else if n = 8 then 3
  else if n = 16 then 4
  else if n = 32 then 5
  else if n = 64 then 6
  else 0

/-- The function `power_two(const uint32_t n)`, result of type `uint8_t`. -/
def power_two (n : Nat) : Nat :=
  if n > 64 then (6 + power_two (n / 64)) % 256
  else power_two_switch n
termination_by n
decreasing_by omega

/-! ## The class `Truth_Table` -/

/-- The two data members of `Truth_Table`: `num_var` (`uint8_t`) and `bits` (`uint64_t`). -/
structure Truth_Table where
  num_var : Nat
  bits : Nat
deriving DecidableEq, Repr

namespace Truth_Table

/-- Constructor `Truth_Table(uint8_t num_var)`: the all-zero table. -/
def ofArity (num_var : Nat) : Truth_Table := ⟨num_var, 0⟩

/-- Constructor `Truth_Table(uint8_t num_var, uint64_t bits)`: the word is masked with
`length_mask[num_var]`; the read is past the end of the array when `num_var > 6`. -/
def ofWord (num_var bits : Nat) : Option Truth_Table :=
  match length_mask[num_var]? with
  | some m => some ⟨num_var, bits &&& m⟩
  | none => none

/-- Member `get_bit(uint8_t position)`: `assert(position < (1 << num_var))`, then
`(bits >> position) & 0x1` converted to `bool`. The `int` shift `1 << num_var` needs
`num_var < 31` and the word shift needs `position < 64`. -/
def get_bit (tt : Truth_Table) (position : Nat) : Option Bool :=
  if tt.num_var < 31 ∧ position < 1 <<< tt.num_var ∧ position < 64 then
    some (((tt.bits >>> position) &&& 1) != 0)
  else none

/-- Member `set_bit(uint8_t position)`: `assert(position < (1 << num_var))`, then
`bits |= uint64_t(1) << position` and `bits &= length_mask[num_var]`. -/
def set_bit (tt : Truth_Table) (position : Nat) : Option Truth_Table :=
  if tt.num_var < 31 ∧ position < 1 <<< tt.num_var ∧ position < 64 then
    match length_mask[tt.num_var]? with
    | some m => some ⟨tt.num_var, (tt.bits ||| (1 <<< position)) &&& m⟩
    | none => none
  else none

/-- Member `n_var()`. -/
def n_var (tt : Truth_Table) : Nat := tt.num_var

/-- The loop of the string constructor, from index `i` on, over the characters not yet
read: a `'1'` calls `set_bit(str.size() - 1 - i)` (the argument converted to `uint8_t`),
any other character must pass `assert(str[i] == '0')`. -/
def ofString_loop (size : Nat) : List Char → Nat → Truth_Table → Option Truth_Table
  | [], _, tt => some tt
  | c :: cs, i, tt =>
    if c = '1' then
      match tt.set_bit ((size - 1 - i) % 256) with
      | some tt1 => ofString_loop size cs (i + 1) tt1
      | none => none
    else if c = '0' then ofString_loop size cs (i + 1) tt
    else none

/-- Constructor `Truth_Table(const std::string str)`: `num_var` is
`power_two(str.size())` (the size converted to `uint32_t`), `bits` starts at 0, and the
constructor returns at once when `num_var == 0`. -/
def ofString (str : String) : Option Truth_Table :=
  let num_var := power_two (str.length % 2 ^ 32)
  if num_var = 0 then some ⟨num_var, 0⟩
  else ofString_loop str.length str.data 0 ⟨num_var, 0⟩

/-- The loop of `operator<<` with its `int8_t` counter `i`: while `i >= 0`, write
`get_bit(i)` as a character and decrement. The counter takes at most 128 non-negative
values, so the first argument (a step budget) of 129 is never used up. -/
def print_loop (tt : Truth_Table) : Nat → Int → Option (List Char)
  | 0, _ => none
  | fuel + 1, i =>
    if 0 ≤ i then
      match tt.get_bit (i.toNat % 256) with
      | some b =>
        match print_loop tt fuel (toInt8 (i - 1)) with
        | some rest => some ((if b then '1' else '0') :: rest)
        | none => none
      | none => none
    else some []

/-- Printing, `operator<<(std::ostream&, Truth_Table const&)`: the characters written,
starting from `int8_t i = (1 << tt.num_var) - 1`. -/
def print (tt : Truth_Table) : Option String :=
  if tt.num_var < 31 then
    match print_loop tt 129 (toInt8 (((1 <<< tt.num_var : Nat) : Int) - 1)) with
    | some cs => some (String.mk cs)
    | none => none
  else none

/-- Bit-wise NOT, `operator~`. -/
def operator_not (tt : Truth_Table) : Option Truth_Table :=
  ofWord tt.num_var (not64 tt.bits)

/-- Bit-wise OR, `operator|`, with `assert(tt1.num_var == tt2.num_var)`. -/
def operator_or (tt1 tt2 : Truth_Table) : Option Truth_Table :=
  if tt1.num_var = tt2.num_var then ofWord tt1.num_var (tt1.bits ||| tt2.bits) else none

/-- Bit-wise AND, `operator&`, with `assert(tt1.num_var == tt2.num_var)`. -/
def operator_and (tt1 tt2 : Truth_Table) : Option Truth_Table :=
  if tt1.num_var = tt2.num_var then ofWord tt1.num_var (tt1.bits &&& tt2.bits) else none

/-- Bit-wise XOR, `operator^`, with `assert(tt1.num_var == tt2.num_var)`. -/
def operator_xor (tt1 tt2 : Truth_Table) : Option Truth_Table :=
  if tt1.num_var = tt2.num_var then ofWord tt1.num_var (tt1.bits ^^^ tt2.bits) else none

/-- Equality, `operator==`. -/
def operator_eq (tt1 tt2 : Truth_Table) : Bool :=
  if tt1.num_var ≠ tt2.num_var then false else tt1.bits == tt2.bits

/-- Inequality, `operator!=`. -/
def operator_ne (tt1 tt2 : Truth_Table) : Bool := !(operator_eq tt1 tt2)

/-- Member `positive_cofactor(uint8_t var)`: `assert(var < num_var)`, then
`(bits & var_mask_pos[var]) | ((bits & var_mask_pos[var]) >> (1 << var))`. -/
def positive_cofactor (tt : Truth_Table) (var : Nat) : Option Truth_Table :=
  if var < tt.num_var then
    match var_mask_pos[var]? with
    | some m => ofWord tt.num_var ((tt.bits &&& m) ||| ((tt.bits &&& m) >>> (1 <<< var)))
    | none => none
  else none

/-- Member `negative_cofactor(uint8_t var)`: `assert(var < num_var)`, then
`(bits & var_mask_neg[var]) | ((bits & var_mask_neg[var]) << (1 << var))`, the left
shift taken in `uint64_t`. -/
def negative_cofactor (tt : Truth_Table) (var : Nat) : Option Truth_Table :=
  if var < tt.num_var then
    match var_mask_neg[var]? with
    | some m =>
      ofWord tt.num_var ((tt.bits &&& m) ||| (((tt.bits &&& m) <<< (1 <<< var)) % 2 ^ 64))
    | none => none
  else none

/-- Member `derivative(uint8_t var)`: XOR of the two cofactors. -/
def derivative (tt : Truth_Table) (var : Nat) : Option Truth_Table :=
  if var < tt.num_var then
    match tt.positive_cofactor var, tt.negative_cofactor var with
    | some p, some q => operator_xor p q
    | _, _ => none
  else none

/-- Member `consensus(uint8_t var)`: AND of the two cofactors. -/
def consensus (tt : Truth_Table) (var : Nat) : Option Truth_Table :=
  if var < tt.num_var then
    match tt.positive_cofactor var, tt.negative_cofactor var with
    | some p, some q => operator_and p q
    | _, _ => none
  else none

/-- Member `smoothing(uint8_t var)`: OR of the two cofactors. -/
def smoothing (tt : Truth_Table) (var : Nat) : Option Truth_Table :=
  if var < tt.num_var then
    match tt.positive_cofactor var, tt.negative_cofactor var with
    | some p, some q => operator_or p q
    | _, _ => none
  else none

/-- The truncation invariant `bits & ~length_mask[num_var] == 0` of a table whose
`num_var` indexes `length_mask` and whose `bits` is a 64-bit word. -/
def invariant (tt : Truth_Table) : Prop :=
  tt.bits < 2 ^ 64 ∧ tt.num_var < length_mask.length ∧
    tt.bits &&& not64 (length_mask.getD tt.num_var 0) = 0

instance invariant_decidable (tt : Truth_Table) : Decidable tt.invariant :=
  inferInstanceAs (Decidable (_ ∧ _ ∧ _))

end Truth_Table

/-- The free function `create_tt_nth_var(num_var, var, polarity)`:
`assert(var < num_var)`, then the table of `var_mask_pos[var]` or `var_mask_neg[var]`. -/
def create_tt_nth_var (num_var var : Nat) (polarity : Bool) : Option Truth_Table :=
  if var < num_var then
    match (if polarity then var_mask_pos[var]? else var_mask_neg[var]?) with
    | some m => Truth_Table.ofWord num_var m
    | none => none
  else none


/-! ## Basic facts about the constant tables and the machine arithmetic -/

theorem power_two_small (n : Nat) (h : n ≤ 64) : power_two n = power_two_switch n := by
  rw [power_two]
  simp [Nat.not_lt.mpr h]

theorem length_mask_eq (n : Nat) (hn : n ≤ 6) : length_mask[n]? = some (2 ^ 2 ^ n - 1) := by
  interval_cases n <;> rfl

theorem length_mask_none (n : Nat) (hn : 6 < n) : length_mask[n]? = none := by
  simp [length_mask]; omega

theorem two_pow_le_64 (n : Nat) (hn : n ≤ 6) : 2 ^ n ≤ 64 := by
  interval_cases n <;> decide

theorem var_mask_pos_spec_lt : ∀ v < 6, ∃ m, var_mask_pos[v]? = some m ∧ m < 2 ^ 64 ∧
    ∀ j < 64, m.testBit j = j.testBit v := by
  decide

theorem var_mask_neg_spec_lt : ∀ v < 6, ∃ m, var_mask_neg[v]? = some m ∧ m < 2 ^ 64 ∧
    ∀ j < 64, m.testBit j = !j.testBit v := by
  decide

/-- Index arithmetic on entry numbers below 64, checked by enumeration. -/
theorem index_facts : ∀ v < 6, ∀ i < 64,
    (i ||| 2 ^ v) = (if i.testBit v then i else 2 ^ v + i) ∧
    (i &&& not64 (2 ^ v)) = (if i.testBit v then i - 2 ^ v else i) ∧
    (i ^^^ 2 ^ v) = (if i.testBit v then i - 2 ^ v else 2 ^ v + i) ∧
    (2 ^ v + i).testBit v = (!i.testBit v) ∧
    (i.testBit v = true → 2 ^ v ≤ i) ∧
    (i.testBit v = false → 2 ^ v + i < 64) ∧
    (2 ^ v ≤ i → (i - 2 ^ v).testBit v = !i.testBit v) := by
  decide

theorem var_mask_pos_spec (v : Nat) (hv : v < 6) : ∃ m, var_mask_pos[v]? = some m ∧
    m < 2 ^ 64 ∧ ∀ j, m.testBit j = (decide (j < 64) && j.testBit v) := by
  obtain ⟨m, hm, hlt, hbit⟩ := var_mask_pos_spec_lt v hv
  refine ⟨m, hm, hlt, fun j => ?_⟩
  by_cases hj : j < 64
  · simp [hj, hbit j hj]
  · have : m < 2 ^ j := lt_of_lt_of_le hlt (Nat.pow_le_pow_right (by decide) (by omega))
    simp [hj, Nat.testBit_lt_two_pow this]

theorem var_mask_neg_spec (v : Nat) (hv : v < 6) : ∃ m, var_mask_neg[v]? = some m ∧
    m < 2 ^ 64 ∧ ∀ j, m.testBit j = (decide (j < 64) && !j.testBit v) := by
  obtain ⟨m, hm, hlt, hbit⟩ := var_mask_neg_spec_lt v hv
  refine ⟨m, hm, hlt, fun j => ?_⟩
  by_cases hj : j < 64
  · simp [hj, hbit j hj]
  · have : m < 2 ^ j := lt_of_lt_of_le hlt (Nat.pow_le_pow_right (by decide) (by omega))
    simp [hj, Nat.testBit_lt_two_pow this]

theorem ofWord_eq (n w : Nat) (hn : n ≤ 6) :
    Truth_Table.ofWord n w = some ⟨n, w &&& (2 ^ 2 ^ n - 1)⟩ := by
  simp [Truth_Table.ofWord, length_mask_eq n hn]

theorem get_bit_eq (t : Truth_Table) (i : Nat) (hn : t.num_var ≤ 6) (hi : i < 2 ^ t.num_var) :
    t.get_bit i = some (t.bits.testBit i) := by
  have h64 := two_pow_le_64 t.num_var hn
  have h1 : t.num_var < 31 ∧ i < 1 <<< t.num_var ∧ i < 64 := by
    refine ⟨by omega, ?_, by omega⟩
    simpa [Nat.shiftLeft_eq] using hi
  simp only [Truth_Table.get_bit, h1, and_self, if_true, Nat.testBit, Nat.and_comm]

theorem masked_testBit (w n i : Nat) :
    (w &&& (2 ^ 2 ^ n - 1)).testBit i = (w.testBit i && decide (i < 2 ^ n)) := by
  simp [Nat.testBit_and, Nat.testBit_two_pow_sub_one, Bool.and_comm]

/-- Entry `i` of the word computed by `positive_cofactor`, before masking. -/
theorem pos_word_testBit (b m v i : Nat) (hv : v < 6) (hm : var_mask_pos[v]? = some m)
    (hi : i < 64) :
    ((b &&& m) ||| ((b &&& m) >>> (1 <<< v))).testBit i = b.testBit (i ||| 2 ^ v) := by
  obtain ⟨m1, hm1, -, hbit⟩ := var_mask_pos_spec v hv
  rw [hm] at hm1
  cases hm1
  obtain ⟨h1, -, -, h4, -, h6, -⟩ := index_facts v hv i hi
  simp only [Nat.testBit_or, Nat.testBit_and, Nat.testBit_shiftRight, Nat.one_shiftLeft,
    hbit, h1, h4, hi]
  cases hb : i.testBit v
  · simp [hb, h6 hb]
  · simp [hb]

/-- Entry `i` of the word computed by `negative_cofactor`, before masking. -/
theorem neg_word_testBit (b m v i : Nat) (hv : v < 6) (hm : var_mask_neg[v]? = some m)
    (hi : i < 64) :
    ((b &&& m) ||| (((b &&& m) <<< (1 <<< v)) % 2 ^ 64)).testBit i
      = b.testBit (i &&& not64 (2 ^ v)) := by
  obtain ⟨m1, hm1, -, hbit⟩ := var_mask_neg_spec v hv
  rw [hm] at hm1
  cases hm1
  obtain ⟨-, h2, -, -, h5, -, h6⟩ := index_facts v hv i hi
  simp only [Nat.testBit_or, Nat.testBit_and, Nat.testBit_mod_two_pow, Nat.one_shiftLeft,
    Nat.testBit_shiftLeft, hbit, h2, hi]
  have hsub : i - 2 ^ v < 64 := lt_of_le_of_lt (Nat.sub_le _ _) hi
  cases hb : i.testBit v
  · by_cases hle : 2 ^ v ≤ i
    · simp [hb, hle, h6 hle]
    · simp [hb, hle]
  · have hle := h5 hb
    simp [hb, hle, h6 hle, hsub]

theorem high_bits_zero (b n : Nat) (h : b < 2 ^ 2 ^ n) :
    ∀ j, 2 ^ n ≤ j → b.testBit j = false := fun _ hj =>
  Nat.testBit_lt_two_pow (lt_of_lt_of_le h (Nat.pow_le_pow_right (by decide) hj))

theorem two_pow_var_lt (n v : Nat) (hv : v < n) : 2 ^ v < 2 ^ n :=
  Nat.pow_lt_pow_right (by decide) hv

/-- What `positive_cofactor` returns on a table of arity at most 6. -/
theorem positive_cofactor_bits (t : Truth_Table) (v : Nat) (hn : t.num_var ≤ 6)
    (hv : v < t.num_var) :
    ∃ r, t.positive_cofactor v = some r ∧ r.num_var = t.num_var ∧
      (∀ i, i < 2 ^ t.num_var → r.bits.testBit i = t.bits.testBit (i ||| 2 ^ v)) ∧
      (∀ i, 2 ^ t.num_var ≤ i → r.bits.testBit i = false) := by
  obtain ⟨m, hm, -, -⟩ := var_mask_pos_spec v (by omega)
  have h64 := two_pow_le_64 t.num_var hn
  refine ⟨⟨t.num_var, ((t.bits &&& m) ||| ((t.bits &&& m) >>> (1 <<< v))) &&&
    (2 ^ 2 ^ t.num_var - 1)⟩, ?_, rfl, ?_, ?_⟩
  · simp only [Truth_Table.positive_cofactor, hv, if_true, hm]
    exact ofWord_eq _ _ hn
  · intro i hi
    simp only [masked_testBit, hi, decide_True, Bool.and_true]
    exact pos_word_testBit t.bits m v i (by omega) hm (by omega)
  · intro i hi
    simp only [masked_testBit, Nat.not_lt.mpr hi, decide_False, Bool.and_false]

/-- What `negative_cofactor` returns on a table of arity at most 6. -/
theorem negative_cofactor_bits (t : Truth_Table) (v : Nat) (hn : t.num_var ≤ 6)
    (hv : v < t.num_var) :
    ∃ r, t.negative_cofactor v = some r ∧ r.num_var = t.num_var ∧
      (∀ i, i < 2 ^ t.num_var → r.bits.testBit i = t.bits.testBit (i &&& not64 (2 ^ v))) ∧
      (∀ i, 2 ^ t.num_var ≤ i → r.bits.testBit i = false) := by
  obtain ⟨m, hm, -, -⟩ := var_mask_neg_spec v (by omega)
  have h64 := two_pow_le_64 t.num_var hn
  refine ⟨⟨t.num_var, ((t.bits &&& m) ||| (((t.bits &&& m) <<< (1 <<< v)) % 2 ^ 64)) &&&
    (2 ^ 2 ^ t.num_var - 1)⟩, ?_, rfl, ?_, ?_⟩
  · simp only [Truth_Table.negative_cofactor, hv, if_true, hm]
    exact ofWord_eq _ _ hn
  · intro i hi
    simp only [masked_testBit, hi, decide_True, Bool.and_true]
    exact neg_word_testBit t.bits m v i (by omega) hm (by omega)
  · intro i hi
    simp only [masked_testBit, Nat.not_lt.mpr hi, decide_False, Bool.and_false]

/-- The left shift of `negative_cofactor`, taken without any wrap-around, has no set bit
at an index from `2 ^ n` on when the table has none. -/
theorem neg_shift_high_bits (b m n v : Nat) (hn : n ≤ 6) (hv : v < n)
    (hm : var_mask_neg[v]? = some m) (hz : ∀ j, 2 ^ n ≤ j → b.testBit j = false) :
    ∀ j, 2 ^ n ≤ j → ((b &&& m) <<< (1 <<< v)).testBit j = false := by
  intro j hj
  obtain ⟨m1, hm1, -, hbit⟩ := var_mask_neg_spec v (by omega)
  rw [hm] at hm1
  cases hm1
  have h64 := two_pow_le_64 n hn
  simp only [Nat.one_shiftLeft, Nat.testBit_shiftLeft, Nat.testBit_and, hbit]
  by_contra hne
  simp only [Bool.not_eq_false, Bool.and_eq_true, decide_eq_true_eq, Bool.not_eq_true']
    at hne
  obtain ⟨hle, hb, h64j, hclear⟩ := hne
  have hlt : j - 2 ^ v < 2 ^ n := by
    by_contra hge
    rw [hz _ (Nat.not_lt.mp hge)] at hb
    exact Bool.false_ne_true hb
  obtain ⟨h1, -, -, -, -, -, -⟩ := index_facts v (by omega) (j - 2 ^ v) h64j
  have hor := Nat.or_lt_two_pow hlt (two_pow_var_lt n v hv)
  rw [h1, if_neg (by simp [hclear])] at hor
  omega

/-- C1: for a table `t` of arity `n <= 6` with no set bit at an index from `2 ^ n` on,
`var < n` and an entry index `i < 2 ^ n`, `t.positive_cofactor(var)` returns a table of
arity `n` whose entry `i` is the entry `i OR 2 ^ var` of `t`; the entries `i` and
`i XOR 2 ^ var` of the result are equal. -/
theorem positive_cofactor_entry (t : Truth_Table) (n var i : Nat)
    (hn : t.num_var = n) (hn6 : n ≤ 6)
    (_hz : ∀ j, 2 ^ n ≤ j → t.bits.testBit j = false)
    (hv : var < n) (hi : i < 2 ^ n) :
    ∃ r b, t.positive_cofactor var = some r ∧ r.num_var = n ∧
      t.get_bit (i ||| 2 ^ var) = some b ∧ r.get_bit i = some b ∧
      r.get_bit (i ^^^ 2 ^ var) = some b := by
  subst hn
  obtain ⟨r, hr, hnum, hbits, -⟩ := positive_cofactor_bits t var hn6 hv
  have hp := two_pow_var_lt _ _ hv
  have hor : i ||| 2 ^ var < 2 ^ t.num_var := Nat.or_lt_two_pow hi hp
  have hxor : i ^^^ 2 ^ var < 2 ^ t.num_var := Nat.xor_lt_two_pow hi hp
  have hsame : (i ^^^ 2 ^ var) ||| 2 ^ var = i ||| 2 ^ var := by
    apply Nat.eq_of_testBit_eq
    intro k
    simp only [Nat.testBit_or, Nat.testBit_xor]
    cases i.testBit k <;> cases (2 ^ var).testBit k <;> rfl
  refine ⟨r, t.bits.testBit (i ||| 2 ^ var), hr, hnum, get_bit_eq t _ hn6 hor, ?_, ?_⟩
  · rw [get_bit_eq r i (hnum ▸ hn6) (hnum ▸ hi), hbits i hi]
  · rw [get_bit_eq r _ (hnum ▸ hn6) (hnum ▸ hxor), hbits _ hxor, hsame]

/-- C1 at the table 0110 of arity 2, variable 0, entry 1. -/
theorem positive_cofactor_entry_witness :
    ∃ r b, (Truth_Table.mk 2 6).positive_cofactor 0 = some r ∧ r.num_var = 2 ∧
      (Truth_Table.mk 2 6).get_bit (1 ||| 2 ^ 0) = some b ∧ r.get_bit 1 = some b ∧
      r.get_bit (1 ^^^ 2 ^ 0) = some b :=
  positive_cofactor_entry ⟨2, 6⟩ 2 0 1 rfl (by decide)
    (high_bits_zero 6 2 (by decide)) (by decide) (by decide)

/-- C2: for a table `t` of arity `n <= 6` with no set bit at an index from `2 ^ n` on,
`var < n` and an entry index `i < 2 ^ n`, `t.negative_cofactor(var)` returns a table of
arity `n` whose entry `i` is the entry `i AND NOT 2 ^ var` of `t`; neither the word
shifted up by `2 ^ var` (taken without wrap-around) nor the result has a set bit at an
index from `2 ^ n` on. -/
theorem negative_cofactor_entry (t : Truth_Table) (n var i : Nat)
    (hn : t.num_var = n) (hn6 : n ≤ 6)
    (hz : ∀ j, 2 ^ n ≤ j → t.bits.testBit j = false)
    (hv : var < n) (hi : i < 2 ^ n) :
    ∃ r b m, t.negative_cofactor var = some r ∧ r.num_var = n ∧
      t.get_bit (i &&& not64 (2 ^ var)) = some b ∧ r.get_bit i = some b ∧
      var_mask_neg[var]? = some m ∧
      (∀ j, 2 ^ n ≤ j → ((t.bits &&& m) <<< (1 <<< var)).testBit j = false) ∧
      (∀ j, 2 ^ n ≤ j → r.bits.testBit j = false) := by
  subst hn
  obtain ⟨r, hr, hnum, hbits, hhigh⟩ := negative_cofactor_bits t var hn6 hv
  obtain ⟨m, hm, -, -⟩ := var_mask_neg_spec var (by omega)
  have hand : i &&& not64 (2 ^ var) < 2 ^ t.num_var :=
    lt_of_le_of_lt Nat.and_le_left hi
  refine ⟨r, t.bits.testBit (i &&& not64 (2 ^ var)), m, hr, hnum,
    get_bit_eq t _ hn6 hand, ?_, hm, neg_shift_high_bits t.bits m _ var hn6 hv hm hz, hhigh⟩
  rw [get_bit_eq r i (hnum ▸ hn6) (hnum ▸ hi), hbits i hi]

/-- C2 at the table 0110 of arity 2, variable 0, entry 1. -/
theorem negative_cofactor_entry_witness :
    ∃ r b m, (Truth_Table.mk 2 6).negative_cofactor 0 = some r ∧ r.num_var = 2 ∧
      (Truth_Table.mk 2 6).get_bit (1 &&& not64 (2 ^ 0)) = some b ∧ r.get_bit 1 = some b ∧
      var_mask_neg[0]? = some m ∧
      (∀ j, 2 ^ 2 ≤ j → (((Truth_Table.mk 2 6).bits &&& m) <<< (1 <<< 0)).testBit j = false) ∧
      (∀ j, 2 ^ 2 ≤ j → r.bits.testBit j = false) :=
  negative_cofactor_entry ⟨2, 6⟩ 2 0 1 rfl (by decide)
    (high_bits_zero 6 2 (by decide)) (by decide) (by decide)

theorem not64_testBit (m j : Nat) (hm : m < 2 ^ 64) :
    (not64 m).testBit j = (decide (j < 64) && !m.testBit j) := by
  have h : not64 m = 2 ^ 64 - (m + 1) := by
    simp only [not64, Nat.mod_eq_of_lt hm]
    omega
  rw [h, Nat.testBit_two_pow_sub_succ hm]

theorem length_mask_getD (n : Nat) (hn : n ≤ 6) : length_mask.getD n 0 = 2 ^ 2 ^ n - 1 := by
  interval_cases n <;> rfl

theorem two_pow_two_pow_le (n : Nat) (hn : n ≤ 6) : 2 ^ 2 ^ n ≤ 2 ^ 64 :=
  Nat.pow_le_pow_right (by decide) (two_pow_le_64 n hn)

/-- The truncation invariant says that the arity is at most 6 and that no bit is set at
an index from `2 ^ num_var` on. -/
theorem invariant_iff (t : Truth_Table) :
    t.invariant ↔ t.num_var ≤ 6 ∧ t.bits < 2 ^ 2 ^ t.num_var := by
  constructor
  · rintro ⟨h64, hlen, hand⟩
    have hn : t.num_var ≤ 6 := by
      simp only [length_mask, List.length_cons, List.length_nil] at hlen
      omega
    refine ⟨hn, Nat.lt_pow_two_of_testBit _ fun j hj => ?_⟩
    have hm : 2 ^ 2 ^ t.num_var - 1 < 2 ^ 64 :=
      lt_of_lt_of_le (Nat.sub_lt (Nat.two_pow_pos _) (by decide))
        (two_pow_two_pow_le _ hn)
    by_cases hj64 : j < 64
    · have hbit := congrArg (fun x => Nat.testBit x j) hand
      simp only [length_mask_getD _ hn, Nat.testBit_and, not64_testBit _ _ hm, hj64,
        Nat.testBit_two_pow_sub_one, Nat.not_lt.mpr hj, decide_True, decide_False,
        Bool.not_false, Bool.and_true, Nat.zero_testBit] at hbit
      exact hbit
    · exact Nat.testBit_lt_two_pow
        (lt_of_lt_of_le h64 (Nat.pow_le_pow_right (by decide) (by omega)))
  · rintro ⟨hn, hlt⟩
    have hm : 2 ^ 2 ^ t.num_var - 1 < 2 ^ 64 :=
      lt_of_lt_of_le (Nat.sub_lt (Nat.two_pow_pos _) (by decide))
        (two_pow_two_pow_le _ hn)
    refine ⟨lt_of_lt_of_le hlt (two_pow_two_pow_le _ hn), ?_, ?_⟩
    · simp only [length_mask, List.length_cons, List.length_nil]
      omega
    · apply Nat.eq_of_testBit_eq
      intro j
      simp only [length_mask_getD _ hn, Nat.testBit_and, not64_testBit _ _ hm,
        Nat.testBit_two_pow_sub_one, Nat.zero_testBit]
      by_cases hj : j < 2 ^ t.num_var
      · simp [hj]
      · simp [high_bits_zero _ _ hlt j (Nat.not_lt.mp hj)]

theorem ofString_small (s : String) (h : s.length ≤ 64) :
    Truth_Table.ofString s =
      if power_two_switch s.length = 0 then some ⟨power_two_switch s.length, 0⟩
      else Truth_Table.ofString_loop s.length s.data 0 ⟨power_two_switch s.length, 0⟩ := by
  have h32 : s.length % 2 ^ 32 = s.length := Nat.mod_eq_of_lt (by omega)
  simp only [Truth_Table.ofString, h32, power_two_small _ h]

/-- The string 0110 builds the table of arity 2 with word 6. -/
theorem ofString_0110 : Truth_Table.ofString "0110" = some ⟨2, 6⟩ := by
  rw [ofString_small _ (by decide)]
  rfl

/-- Entries of the table the three binary operators build from two cofactors. -/
theorem cofactor_pair (t : Truth_Table) (v : Nat) (hn : t.num_var ≤ 6) (hv : v < t.num_var) :
    ∃ p q, t.positive_cofactor v = some p ∧ t.negative_cofactor v = some q ∧
      p.num_var = t.num_var ∧ q.num_var = t.num_var ∧
      (∀ i, i < 2 ^ t.num_var → p.bits.testBit i = t.bits.testBit (i ||| 2 ^ v)) ∧
      (∀ i, i < 2 ^ t.num_var → q.bits.testBit i = t.bits.testBit (i &&& not64 (2 ^ v))) := by
  obtain ⟨p, hp, hpn, hpb, -⟩ := positive_cofactor_bits t v hn hv
  obtain ⟨q, hq, hqn, hqb, -⟩ := negative_cofactor_bits t v hn hv
  exact ⟨p, q, hp, hq, hpn, hqn, hpb, hqb⟩

/-- What `consensus` returns on a table of arity at most 6. -/
theorem consensus_bits (t : Truth_Table) (v : Nat) (hn : t.num_var ≤ 6) (hv : v < t.num_var) :
    ∃ r, t.consensus v = some r ∧ r.num_var = t.num_var ∧
      (∀ i, i < 2 ^ t.num_var → r.bits.testBit i =
        (t.bits.testBit (i ||| 2 ^ v) && t.bits.testBit (i &&& not64 (2 ^ v)))) ∧
      (∀ i, 2 ^ t.num_var ≤ i → r.bits.testBit i = false) := by
  obtain ⟨p, q, hp, hq, hpn, hqn, hpb, hqb⟩ := cofactor_pair t v hn hv
  refine ⟨⟨t.num_var, (p.bits &&& q.bits) &&& (2 ^ 2 ^ t.num_var - 1)⟩, ?_, rfl, ?_, ?_⟩
  · simp only [Truth_Table.consensus, hv, if_true, hp, hq, Truth_Table.operator_and, hpn, hqn]
    exact ofWord_eq _ _ hn
  · intro i hi
    rw [masked_testBit]
    simp only [hi, decide_True, Bool.and_true, Nat.testBit_and, hpb i hi, hqb i hi]
  · intro i hi
    simp only [masked_testBit, Nat.not_lt.mpr hi, decide_False, Bool.and_false]

/-- What `smoothing` returns on a table of arity at most 6. -/
theorem smoothing_bits (t : Truth_Table) (v : Nat) (hn : t.num_var ≤ 6) (hv : v < t.num_var) :
    ∃ r, t.smoothing v = some r ∧ r.num_var = t.num_var ∧
      (∀ i, i < 2 ^ t.num_var → r.bits.testBit i =
        (t.bits.testBit (i ||| 2 ^ v) || t.bits.testBit (i &&& not64 (2 ^ v)))) ∧
      (∀ i, 2 ^ t.num_var ≤ i → r.bits.testBit i = false) := by
  obtain ⟨p, q, hp, hq, hpn, hqn, hpb, hqb⟩ := cofactor_pair t v hn hv
  refine ⟨⟨t.num_var, (p.bits ||| q.bits) &&& (2 ^ 2 ^ t.num_var - 1)⟩, ?_, rfl, ?_, ?_⟩
  · simp only [Truth_Table.smoothing, hv, if_true, hp, hq, Truth_Table.operator_or, hpn, hqn]
    exact ofWord_eq _ _ hn
  · intro i hi
    simp only [masked_testBit, hi, decide_True, Bool.and_true, Nat.testBit_or, hpb i hi,
      hqb i hi]
  · intro i hi
    simp only [masked_testBit, Nat.not_lt.mpr hi, decide_False, Bool.and_false]

/-- What `derivative` returns on a table of arity at most 6. -/
theorem derivative_bits (t : Truth_Table) (v : Nat) (hn : t.num_var ≤ 6) (hv : v < t.num_var) :
    ∃ r, t.derivative v = some r ∧ r.num_var = t.num_var ∧
      (∀ i, i < 2 ^ t.num_var → r.bits.testBit i =
        (t.bits.testBit (i ||| 2 ^ v) ^^ t.bits.testBit (i &&& not64 (2 ^ v)))) ∧
      (∀ i, 2 ^ t.num_var ≤ i → r.bits.testBit i = false) := by
  obtain ⟨p, q, hp, hq, hpn, hqn, hpb, hqb⟩ := cofactor_pair t v hn hv
  refine ⟨⟨t.num_var, (p.bits ^^^ q.bits) &&& (2 ^ 2 ^ t.num_var - 1)⟩, ?_, rfl, ?_, ?_⟩
  · simp only [Truth_Table.derivative, hv, if_true, hp, hq, Truth_Table.operator_xor, hpn, hqn]
    exact ofWord_eq _ _ hn
  · intro i hi
    simp only [masked_testBit, hi, decide_True, Bool.and_true, Nat.testBit_xor, hpb i hi,
      hqb i hi]
  · intro i hi
    simp only [masked_testBit, Nat.not_lt.mpr hi, decide_False, Bool.and_false]

/-- C3: for a table `t` of arity `n <= 6` satisfying the truncation invariant, `var < n`
and `i < 2 ^ n`, `t.consensus(var)` returns a table whose entry `i` is 1 if and only if
the entries `i AND NOT 2 ^ var` and `i OR 2 ^ var` of `t` are both 1. -/
theorem consensus_entry (t : Truth_Table) (n var i : Nat)
    (hn : t.num_var = n) (hn6 : n ≤ 6) (_hinv : t.invariant)
    (hv : var < n) (hi : i < 2 ^ n) :
    ∃ r b, t.consensus var = some r ∧ r.num_var = n ∧ r.get_bit i = some b ∧
      (b = true ↔ (t.get_bit (i &&& not64 (2 ^ var)) = some true ∧
        t.get_bit (i ||| 2 ^ var) = some true)) := by
  subst hn
  obtain ⟨r, hr, hnum, hbits, -⟩ := consensus_bits t var hn6 hv
  have hor : i ||| 2 ^ var < 2 ^ t.num_var := Nat.or_lt_two_pow hi (two_pow_var_lt _ _ hv)
  have hand : i &&& not64 (2 ^ var) < 2 ^ t.num_var := lt_of_le_of_lt Nat.and_le_left hi
  refine ⟨r, _, hr, hnum, get_bit_eq r i (hnum ▸ hn6) (hnum ▸ hi), ?_⟩
  rw [hbits i hi, get_bit_eq t _ hn6 hor, get_bit_eq t _ hn6 hand]
  simp only [Bool.and_eq_true, Option.some.injEq]
  exact And.comm

/-- C3 at the table 0111 of arity 2, variable 0, entry 3. -/
theorem consensus_entry_witness :
    ∃ r b, (Truth_Table.mk 2 7).consensus 0 = some r ∧ r.num_var = 2 ∧
      r.get_bit 3 = some b ∧
      (b = true ↔ ((Truth_Table.mk 2 7).get_bit (3 &&& not64 (2 ^ 0)) = some true ∧
        (Truth_Table.mk 2 7).get_bit (3 ||| 2 ^ 0) = some true)) :=
  consensus_entry ⟨2, 7⟩ 2 0 3 rfl (by decide) (by decide) (by decide) (by decide)

/-- C4: for a table `t` of arity `n <= 6` satisfying the truncation invariant, `var < n`
and `i < 2 ^ n`, `t.smoothing(var)` returns a table whose entry `i` is 1 if and only if at
least one of the entries `i AND NOT 2 ^ var` and `i OR 2 ^ var` of `t` is 1. -/
theorem smoothing_entry (t : Truth_Table) (n var i : Nat)
    (hn : t.num_var = n) (hn6 : n ≤ 6) (_hinv : t.invariant)
    (hv : var < n) (hi : i < 2 ^ n) :
    ∃ r b, t.smoothing var = some r ∧ r.num_var = n ∧ r.get_bit i = some b ∧
      (b = true ↔ (t.get_bit (i &&& not64 (2 ^ var)) = some true ∨
        t.get_bit (i ||| 2 ^ var) = some true)) := by
  subst hn
  obtain ⟨r, hr, hnum, hbits, -⟩ := smoothing_bits t var hn6 hv
  have hor : i ||| 2 ^ var < 2 ^ t.num_var := Nat.or_lt_two_pow hi (two_pow_var_lt _ _ hv)
  have hand : i &&& not64 (2 ^ var) < 2 ^ t.num_var := lt_of_le_of_lt Nat.and_le_left hi
  refine ⟨r, _, hr, hnum, get_bit_eq r i (hnum ▸ hn6) (hnum ▸ hi), ?_⟩
  rw [hbits i hi, get_bit_eq t _ hn6 hor, get_bit_eq t _ hn6 hand]
  simp only [Bool.or_eq_true, Option.some.injEq]
  exact Or.comm

/-- C4 at the table 0110 of arity 2, variable 1, entry 0. -/
theorem smoothing_entry_witness :
    ∃ r b, (Truth_Table.mk 2 6).smoothing 1 = some r ∧ r.num_var = 2 ∧
      r.get_bit 0 = some b ∧
      (b = true ↔ ((Truth_Table.mk 2 6).get_bit (0 &&& not64 (2 ^ 1)) = some true ∨
        (Truth_Table.mk 2 6).get_bit (0 ||| 2 ^ 1) = some true)) :=
  smoothing_entry ⟨2, 6⟩ 2 1 0 rfl (by decide) (by decide) (by decide) (by decide)

/-- C5: for a table `t` of arity `n <= 6` satisfying the truncation invariant, `var < n`
and `i < 2 ^ n`, `t.derivative(var)` returns a table whose entry `i` is 1 if and only if
the entries `i AND NOT 2 ^ var` and `i OR 2 ^ var` of `t` differ. For the table built from
the string 0110, `derivative(0)` prints as 1111, `consensus(0)` as 0000 and `smoothing(0)`
as 1111. -/
theorem derivative_entry :
    (∀ (t : Truth_Table) (n var i : Nat), t.num_var = n → n ≤ 6 → t.invariant →
      var < n → i < 2 ^ n →
      ∃ r b c d, t.derivative var = some r ∧ r.num_var = n ∧ r.get_bit i = some b ∧
        t.get_bit (i &&& not64 (2 ^ var)) = some c ∧ t.get_bit (i ||| 2 ^ var) = some d ∧
        (b = true ↔ c ≠ d)) ∧
    ((Truth_Table.ofString "0110").bind
      (fun t => (t.derivative 0).bind Truth_Table.print) = some "1111") ∧
    ((Truth_Table.ofString "0110").bind
      (fun t => (t.consensus 0).bind Truth_Table.print) = some "0000") ∧
    ((Truth_Table.ofString "0110").bind
      (fun t => (t.smoothing 0).bind Truth_Table.print) = some "1111") := by
  refine ⟨?_, ?_, ?_, ?_⟩
  · intro t n var i hn hn6 _ hv hi
    subst hn
    obtain ⟨r, hr, hnum, hbits, -⟩ := derivative_bits t var hn6 hv
    have hor : i ||| 2 ^ var < 2 ^ t.num_var := Nat.or_lt_two_pow hi (two_pow_var_lt _ _ hv)
    have hand : i &&& not64 (2 ^ var) < 2 ^ t.num_var := lt_of_le_of_lt Nat.and_le_left hi
    refine ⟨r, _, _, _, hr, hnum, get_bit_eq r i (hnum ▸ hn6) (hnum ▸ hi),
      get_bit_eq t _ hn6 hand, get_bit_eq t _ hn6 hor, ?_⟩
    rw [hbits i hi]
    cases t.bits.testBit (i ||| 2 ^ var) <;> cases t.bits.testBit (i &&& not64 (2 ^ var)) <;>
      simp
  · rw [ofString_0110]; decide
  · rw [ofString_0110]; decide
  · rw [ofString_0110]; decide

/-- C5 at the table 0110 of arity 2, variable 0, entry 2. -/
theorem derivative_entry_witness :
    ∃ r b c d, (Truth_Table.mk 2 6).derivative 0 = some r ∧ r.num_var = 2 ∧
      r.get_bit 2 = some b ∧
      (Truth_Table.mk 2 6).get_bit (2 &&& not64 (2 ^ 0)) = some c ∧
      (Truth_Table.mk 2 6).get_bit (2 ||| 2 ^ 0) = some d ∧ (b = true ↔ c ≠ d) :=
  derivative_entry.1 ⟨2, 6⟩ 2 0 2 rfl (by decide) (by decide) (by decide) (by decide)

/-- C6: for `1 <= n <= 6`, `var < n`, a polarity `p` and `i < 2 ^ n`,
`create_tt_nth_var(n, var, p)` returns a table of arity `n` whose entry `i` is 1 if and
only if bit `var` of `i` is `p`. `create_tt_nth_var(2, 0, true)` prints as 1010 and
`create_tt_nth_var(2, 0, false)` as 0101. -/
theorem create_tt_nth_var_entry :
    (∀ (n var : Nat) (p : Bool) (i : Nat), 1 ≤ n → n ≤ 6 → var < n → i < 2 ^ n →
      ∃ r b, create_tt_nth_var n var p = some r ∧ r.num_var = n ∧ r.get_bit i = some b ∧
        (b = true ↔ i.testBit var = p)) ∧
    ((create_tt_nth_var 2 0 true).bind Truth_Table.print = some "1010") ∧
    ((create_tt_nth_var 2 0 false).bind Truth_Table.print = some "0101") := by
  refine ⟨?_, by decide, by decide⟩
  intro n var p i _ hn6 hv hi
  have h64 := two_pow_le_64 n hn6
  obtain ⟨mp, hmp, -, hbp⟩ := var_mask_pos_spec var (by omega)
  obtain ⟨mn, hmn, -, hbn⟩ := var_mask_neg_spec var (by omega)
  have hi64 : i < 64 := by omega
  cases p
  · refine ⟨⟨n, mn &&& (2 ^ 2 ^ n - 1)⟩, _, ?_, rfl, get_bit_eq _ i hn6 hi, ?_⟩
    · simp only [create_tt_nth_var, hv, if_true, hmn, Bool.false_eq_true, if_false]
      exact ofWord_eq _ _ hn6
    · simp [masked_testBit, hbn, hi, hi64]
  · refine ⟨⟨n, mp &&& (2 ^ 2 ^ n - 1)⟩, _, ?_, rfl, get_bit_eq _ i hn6 hi, ?_⟩
    · simp only [create_tt_nth_var, hv, if_true, hmp]
      exact ofWord_eq _ _ hn6
    · simp [masked_testBit, hbp, hi, hi64]

/-- C6 at arity 3, variable 1, negative polarity, entry 5. -/
theorem create_tt_nth_var_entry_witness :
    ∃ r b, create_tt_nth_var 3 1 false = some r ∧ r.num_var = 3 ∧ r.get_bit 5 = some b ∧
      (b = true ↔ Nat.testBit 5 1 = false) :=
  create_tt_nth_var_entry.1 3 1 false 5 (by decide) (by decide) (by decide) (by decide)

theorem invariant_of_masked (n w : Nat) (hn : n ≤ 6) :
    (Truth_Table.mk n (w &&& (2 ^ 2 ^ n - 1))).invariant := by
  rw [invariant_iff]
  exact ⟨hn, lt_of_le_of_lt Nat.and_le_right (Nat.sub_lt (Nat.two_pow_pos _) (by decide))⟩

theorem invariant_of_high_bits (r : Truth_Table) (hn : r.num_var ≤ 6)
    (h : ∀ i, 2 ^ r.num_var ≤ i → r.bits.testBit i = false) : r.invariant := by
  rw [invariant_iff]
  exact ⟨hn, Nat.lt_pow_two_of_testBit _ h⟩

theorem set_bit_eq (t : Truth_Table) (pos : Nat) (hn : t.num_var ≤ 6)
    (hpos : pos < 2 ^ t.num_var) :
    t.set_bit pos = some ⟨t.num_var, (t.bits ||| (1 <<< pos)) &&& (2 ^ 2 ^ t.num_var - 1)⟩ := by
  have h64 := two_pow_le_64 t.num_var hn
  have h1 : t.num_var < 31 ∧ pos < 1 <<< t.num_var ∧ pos < 64 := by
    refine ⟨by omega, ?_, by omega⟩
    simpa [Nat.shiftLeft_eq] using hpos
  simp only [Truth_Table.set_bit, h1, and_self, if_true, length_mask_eq _ hn]

theorem set_bit_some (t r : Truth_Table) (pos : Nat) (h : t.set_bit pos = some r) :
    r.num_var = t.num_var ∧ (t.num_var ≤ 6 → r.invariant) := by
  unfold Truth_Table.set_bit at h
  split at h
  · rename_i hc
    by_cases hn : t.num_var ≤ 6
    · have hpos : pos < 2 ^ t.num_var := by simpa [Nat.shiftLeft_eq] using hc.2.1
      simp only [length_mask_eq _ hn, Option.some.injEq] at h
      subst h
      exact ⟨rfl, fun _ => invariant_of_masked _ _ hn⟩
    · simp [length_mask_none _ (Nat.lt_of_not_le hn)] at h
  · cases h

theorem ofString_loop_some (size : Nat) (cs : List Char) :
    ∀ (i : Nat) (t r : Truth_Table), Truth_Table.ofString_loop size cs i t = some r →
      r.num_var = t.num_var ∧ (t.invariant → r.invariant) := by
  induction cs with
  | nil =>
    intro i t r h
    simp only [Truth_Table.ofString_loop, Option.some.injEq] at h
    subst h
    exact ⟨rfl, id⟩
  | cons c cs ih =>
    intro i t r h
    simp only [Truth_Table.ofString_loop] at h
    split at h
    · cases hs : t.set_bit ((size - 1 - i) % 256) with
      | none => simp [hs] at h
      | some t1 =>
        simp only [hs] at h
        obtain ⟨hn1, hinv1⟩ := set_bit_some t t1 _ hs
        obtain ⟨hn, hinv⟩ := ih (i + 1) t1 r h
        exact ⟨hn.trans hn1, fun ht => hinv (hinv1 ((invariant_iff t).mp ht).1)⟩
    · split at h
      · exact ih (i + 1) t r h
      · cases h

theorem ofWord_invariant (n w : Nat) (hn : n ≤ 6) :
    ∃ r, Truth_Table.ofWord n w = some r ∧ r.num_var = n ∧ r.invariant :=
  ⟨_, ofWord_eq n w hn, rfl, invariant_of_masked n w hn⟩

/-- C7: the truncation invariant holds for the table each constructor returns for an arity
in 0..6 (from arity, from arity and a 64-bit word, from a bit string, `create_tt_nth_var`),
and `set_bit`, `~`, `&`, `|`, `^`, the two cofactors, `derivative`, `consensus` and
`smoothing` return a table satisfying it whenever their operands satisfy it and their
precondition holds; `Truth_Table(n, w)` has no set bit at an index from `2 ^ n` on. -/
theorem invariant_established_and_preserved :
    (∀ n, n ≤ 6 → (Truth_Table.ofArity n).invariant) ∧
    (∀ n w, n ≤ 6 → w < 2 ^ 64 → ∃ r, Truth_Table.ofWord n w = some r ∧ r.num_var = n ∧
      r.invariant ∧ ∀ j, 2 ^ n ≤ j → r.bits.testBit j = false) ∧
    (∀ s r, Truth_Table.ofString s = some r → r.num_var ≤ 6 → r.invariant) ∧
    (∀ n var p, n ≤ 6 → var < n → ∃ r, create_tt_nth_var n var p = some r ∧ r.invariant) ∧
    (∀ (t : Truth_Table) pos, t.invariant → pos < 2 ^ t.num_var →
      ∃ r, t.set_bit pos = some r ∧ r.invariant) ∧
    (∀ t : Truth_Table, t.invariant → ∃ r, t.operator_not = some r ∧ r.invariant) ∧
    (∀ a b : Truth_Table, a.invariant → b.invariant → a.num_var = b.num_var →
      (∃ r, a.operator_and b = some r ∧ r.invariant) ∧
      (∃ r, a.operator_or b = some r ∧ r.invariant) ∧
      (∃ r, a.operator_xor b = some r ∧ r.invariant)) ∧
    (∀ (t : Truth_Table) var, t.invariant → var < t.num_var →
      (∃ r, t.positive_cofactor var = some r ∧ r.invariant) ∧
      (∃ r, t.negative_cofactor var = some r ∧ r.invariant) ∧
      (∃ r, t.derivative var = some r ∧ r.invariant) ∧
      (∃ r, t.consensus var = some r ∧ r.invariant) ∧
      (∃ r, t.smoothing var = some r ∧ r.invariant)) := by
  refine ⟨?_, ?_, ?_, ?_, ?_, ?_, ?_, ?_⟩
  · intro n hn
    rw [invariant_iff]
    exact ⟨hn, Nat.two_pow_pos _⟩
  · intro n w hn _
    refine ⟨_, ofWord_eq n w hn, rfl, invariant_of_masked n w hn, ?_⟩
    exact high_bits_zero _ _ ((invariant_iff _).mp (invariant_of_masked n w hn)).2
  · intro s r h hr
    unfold Truth_Table.ofString at h
    simp only at h
    split at h
    · simp only [Option.some.injEq] at h
      subst h
      rw [invariant_iff]
      exact ⟨hr, Nat.two_pow_pos _⟩
    · obtain ⟨hnum, hinv⟩ := ofString_loop_some _ _ _ _ _ h
      apply hinv
      rw [invariant_iff]
      exact ⟨hnum ▸ hr, Nat.two_pow_pos _⟩
  · intro n var p hn hv
    obtain ⟨mp, hmp, -, -⟩ := var_mask_pos_spec var (by omega)
    obtain ⟨mn, hmn, -, -⟩ := var_mask_neg_spec var (by omega)
    cases p
    · obtain ⟨r, hr, -, hinv⟩ := ofWord_invariant n mn hn
      exact ⟨r, by simp only [create_tt_nth_var, hv, if_true, hmn, Bool.false_eq_true,
        if_false, hr], hinv⟩
    · obtain ⟨r, hr, -, hinv⟩ := ofWord_invariant n mp hn
      exact ⟨r, by simp only [create_tt_nth_var, hv, if_true, hmp, hr], hinv⟩
  · intro t pos ht hpos
    have hn := ((invariant_iff t).mp ht).1
    exact ⟨_, set_bit_eq t pos hn hpos, invariant_of_masked _ _ hn⟩
  · intro t ht
    have hn := ((invariant_iff t).mp ht).1
    obtain ⟨r, hr, -, hinv⟩ := ofWord_invariant t.num_var (not64 t.bits) hn
    exact ⟨r, hr, hinv⟩
  · intro a b ha _ hab
    have hn := ((invariant_iff a).mp ha).1
    refine ⟨?_, ?_, ?_⟩
    · obtain ⟨r, hr, -, hinv⟩ := ofWord_invariant a.num_var (a.bits &&& b.bits) hn
      exact ⟨r, by rw [Truth_Table.operator_and, if_pos hab]; exact hr, hinv⟩
    · obtain ⟨r, hr, -, hinv⟩ := ofWord_invariant a.num_var (a.bits ||| b.bits) hn
      exact ⟨r, by rw [Truth_Table.operator_or, if_pos hab]; exact hr, hinv⟩
    · obtain ⟨r, hr, -, hinv⟩ := ofWord_invariant a.num_var (a.bits ^^^ b.bits) hn
      exact ⟨r, by rw [Truth_Table.operator_xor, if_pos hab]; exact hr, hinv⟩
  · intro t var ht hv
    have hn := ((invariant_iff t).mp ht).1
    refine ⟨?_, ?_, ?_, ?_, ?_⟩
    · obtain ⟨r, hr, hnum, -, hhigh⟩ := positive_cofactor_bits t var hn hv
      exact ⟨r, hr, invariant_of_high_bits r (hnum ▸ hn) (hnum ▸ hhigh)⟩
    · obtain ⟨r, hr, hnum, -, hhigh⟩ := negative_cofactor_bits t var hn hv
      exact ⟨r, hr, invariant_of_high_bits r (hnum ▸ hn) (hnum ▸ hhigh)⟩
    · obtain ⟨r, hr, hnum, -, hhigh⟩ := derivative_bits t var hn hv
      exact ⟨r, hr, invariant_of_high_bits r (hnum ▸ hn) (hnum ▸ hhigh)⟩
    · obtain ⟨r, hr, hnum, -, hhigh⟩ := consensus_bits t var hn hv
      exact ⟨r, hr, invariant_of_high_bits r (hnum ▸ hn) (hnum ▸ hhigh)⟩
    · obtain ⟨r, hr, hnum, -, hhigh⟩ := smoothing_bits t var hn hv
      exact ⟨r, hr, invariant_of_high_bits r (hnum ▸ hn) (hnum ▸ hhigh)⟩

/-- C7 at the string 0110: the table it builds satisfies the invariant. -/
theorem invariant_established_and_preserved_witness : (Truth_Table.mk 2 6).invariant :=
  invariant_established_and_preserved.2.2.1 "0110" ⟨2, 6⟩ ofString_0110 (by decide)

/-- The characters the printing loop writes when its counter starts at `k - 1`. -/
theorem print_loop_eq (t : Truth_Table) (hn : t.num_var ≤ 6) :
    ∀ k fuel, k < fuel → k ≤ 2 ^ t.num_var →
      t.print_loop fuel ((k : Int) - 1) =
        some (((List.range k).map fun i => if t.bits.testBit i then '1' else '0').reverse) := by
  intro k
  induction k with
  | zero =>
    intro fuel hf _
    obtain ⟨f, rfl⟩ : ∃ f, fuel = f + 1 := ⟨fuel - 1, by omega⟩
    simp [Truth_Table.print_loop]
  | succ k ih =>
    intro fuel hf hk
    obtain ⟨f, rfl⟩ : ∃ f, fuel = f + 1 := ⟨fuel - 1, by omega⟩
    have h64 := two_pow_le_64 _ hn
    have hcast : ((k + 1 : Nat) : Int) - 1 = (k : Int) := by omega
    have hwrap : toInt8 ((k : Int) - 1) = (k : Int) - 1 := by
      unfold toInt8
      omega
    have hidx : (k : Int).toNat % 256 = k := by
      rw [Int.toNat_ofNat]
      omega
    have hpos : (0 : Int) ≤ (k : Int) := Int.ofNat_nonneg k
    rw [hcast]
    simp only [Truth_Table.print_loop, hpos, if_true, hidx, get_bit_eq t k hn (by omega),
      hwrap, ih f (by omega) (by omega), List.range_succ, List.map_append, List.map_cons,
      List.map_nil, List.reverse_append, List.reverse_cons, List.reverse_nil, List.nil_append,
      List.singleton_append]

/-- What printing returns on a table of arity at most 6. -/
theorem print_eq (t : Truth_Table) (hn : t.num_var ≤ 6) :
    t.print = some (String.mk
      ((List.range (2 ^ t.num_var)).map fun i =>
        if t.bits.testBit i then '1' else '0').reverse) := by
  have h64 := two_pow_le_64 _ hn
  have hlt : t.num_var < 31 := by omega
  have hstart : toInt8 (((1 <<< t.num_var : Nat) : Int) - 1) = ((2 ^ t.num_var : Nat) : Int) - 1 := by
    rw [Nat.one_shiftLeft]
    generalize 2 ^ t.num_var = m at h64
    unfold toInt8
    omega
  simp only [Truth_Table.print, hlt, if_true, hstart,
    print_loop_eq t hn (2 ^ t.num_var) 129 (by omega) (le_refl _)]

theorem reverse_map_range_get (f : Nat → Char) (k j : Nat) (hj : j < k) :
    (((List.range k).map f).reverse)[j]? = some (f (k - 1 - j)) := by
  rw [List.getElem?_reverse (by simpa using hj)]
  simp only [List.length_map, List.length_range, List.getElem?_map]
  rw [List.getElem?_range (by omega)]
  rfl

/-- C10: for a table `t` of arity `n` in 0..6 satisfying the truncation invariant, printing
returns exactly `2 ^ n` characters, each one 0 or 1, and the character at position `j` is 1
if and only if entry `2 ^ n - 1 - j` of `t` is 1. Printing returns, so no assertion of
`get_bit` fires; the initial counter value `(1 << n) - 1` and every decrement from a value
in `0 .. 2 ^ n - 1` are unchanged by the conversion to `int8_t`. -/
theorem print_entry (t : Truth_Table) (n : Nat) (hn : t.num_var = n) (hn6 : n ≤ 6)
    (_hinv : t.invariant) :
    ∃ s, t.print = some s ∧ s.length = 2 ^ n ∧
      (∀ j, j < 2 ^ n → ∃ c b, s.data[j]? = some c ∧ t.get_bit (2 ^ n - 1 - j) = some b ∧
        (c = '0' ∨ c = '1') ∧ (c = '1' ↔ b = true)) ∧
      toInt8 (((1 <<< n : Nat) : Int) - 1) = ((2 ^ n : Nat) : Int) - 1 ∧
      (∀ i : Int, 0 ≤ i → i ≤ ((2 ^ n : Nat) : Int) - 1 → toInt8 (i - 1) = i - 1) := by
  subst hn
  have h64 := two_pow_le_64 _ hn6
  refine ⟨_, print_eq t hn6, by simp, ?_, ?_, ?_⟩
  · intro j hj
    refine ⟨_, _, reverse_map_range_get _ _ j hj, get_bit_eq t _ hn6 (by omega), ?_, ?_⟩
    · cases t.bits.testBit (2 ^ t.num_var - 1 - j) <;> simp
    · cases t.bits.testBit (2 ^ t.num_var - 1 - j) <;> simp
  · rw [Nat.one_shiftLeft]
    generalize 2 ^ t.num_var = m at h64
    unfold toInt8
    omega
  · intro i h0 hi
    generalize 2 ^ t.num_var = m at h64 hi
    unfold toInt8
    omega

/-- C10 at the table 0110 of arity 2. -/
theorem print_entry_witness :
    ∃ s, (Truth_Table.mk 2 6).print = some s ∧ s.length = 2 ^ 2 ∧
      (∀ j, j < 2 ^ 2 → ∃ c b, s.data[j]? = some c ∧
        (Truth_Table.mk 2 6).get_bit (2 ^ 2 - 1 - j) = some b ∧
        (c = '0' ∨ c = '1') ∧ (c = '1' ↔ b = true)) ∧
      toInt8 (((1 <<< 2 : Nat) : Int) - 1) = ((2 ^ 2 : Nat) : Int) - 1 ∧
      (∀ i : Int, 0 ≤ i → i ≤ ((2 ^ 2 : Nat) : Int) - 1 → toInt8 (i - 1) = i - 1) :=
  print_entry ⟨2, 6⟩ 2 rfl (by decide) (by decide)

theorem set_bit_testBit (t : Truth_Table) (pos p : Nat) (hpos : pos < 2 ^ t.num_var)
    (hb : t.bits < 2 ^ 2 ^ t.num_var) :
    ((t.bits ||| (1 <<< pos)) &&& (2 ^ 2 ^ t.num_var - 1)).testBit p = true ↔
      (t.bits.testBit p = true ∨ p = pos) := by
  rw [masked_testBit, Nat.one_shiftLeft]
  simp only [Nat.testBit_or, Nat.testBit_two_pow, Bool.and_eq_true, Bool.or_eq_true,
    decide_eq_true_eq]
  constructor
  · rintro ⟨h | h, -⟩
    · exact Or.inl h
    · exact Or.inr h.symm
  · rintro (h | h)
    · refine ⟨Or.inl h, ?_⟩
      by_contra hp
      rw [high_bits_zero _ _ hb p (Nat.not_lt.mp hp)] at h
      exact Bool.false_ne_true h
    · exact ⟨Or.inr h.symm, h ▸ hpos⟩

/-- The bits the loop of the string constructor sets: the character `k` places from the
end of the characters still to read sets bit `k`. -/
theorem ofString_loop_spec (size : Nat) (cs : List Char) :
    ∀ (i : Nat) (t : Truth_Table), t.num_var ≤ 6 → t.bits < 2 ^ 2 ^ t.num_var →
      size ≤ 2 ^ t.num_var → i + cs.length = size → (∀ c ∈ cs, c = '0' ∨ c = '1') →
      ∃ r, Truth_Table.ofString_loop size cs i t = some r ∧ r.num_var = t.num_var ∧
        ∀ p, r.bits.testBit p = true ↔
          (t.bits.testBit p = true ∨ (p < cs.length ∧ cs[cs.length - 1 - p]? = some '1')) := by
  induction cs with
  | nil =>
    intro i t _ _ _ _ _
    exact ⟨t, rfl, rfl, fun p => by simp⟩
  | cons c cs ih =>
    intro i t hn hb hsize hlen hchars
    have h64 := two_pow_le_64 _ hn
    simp only [List.length_cons] at hlen
    have hcs : ∀ c ∈ cs, c = '0' ∨ c = '1' := fun d hd => hchars d (List.mem_cons_of_mem _ hd)
    have hidx : ∀ p, p < cs.length → (c :: cs)[cs.length + 1 - 1 - p]? = cs[cs.length - 1 - p]? := by
      intro p hp
      have : cs.length + 1 - 1 - p = (cs.length - 1 - p) + 1 := by omega
      rw [this, List.getElem?_cons_succ]
    have hlast : (c :: cs)[cs.length + 1 - 1 - cs.length]? = some c := by
      have : cs.length + 1 - 1 - cs.length = 0 := by omega
      rw [this, List.getElem?_cons_zero]
    by_cases hc1 : c = '1'
    · have hposeq : (size - 1 - i) % 256 = cs.length := by omega
      have hpos : cs.length < 2 ^ t.num_var := by omega
      have hinv1 := (invariant_iff _).mp (invariant_of_masked t.num_var
        (t.bits ||| (1 <<< cs.length)) hn)
      obtain ⟨r, hr, hnum, hbits⟩ := ih (i + 1)
        ⟨t.num_var, (t.bits ||| (1 <<< cs.length)) &&& (2 ^ 2 ^ t.num_var - 1)⟩
        hn hinv1.2 hsize (by omega) hcs
      refine ⟨r, ?_, hnum, fun p => ?_⟩
      · simp only [Truth_Table.ofString_loop, hc1, if_true, hposeq, set_bit_eq t _ hn hpos]
        exact hr
      · rw [hbits p, set_bit_testBit t _ p hpos hb]
        simp only [List.length_cons]
        rcases Nat.lt_trichotomy p cs.length with hp | hp | hp
        · rw [hidx p hp]
          constructor
          · rintro ((h | h) | h)
            · exact Or.inl h
            · omega
            · exact Or.inr ⟨by omega, h.2⟩
          · rintro (h | h)
            · exact Or.inl (Or.inl h)
            · exact Or.inr ⟨hp, h.2⟩
        · subst hp
          rw [hlast, hc1]
          simp
        · constructor
          · rintro ((h | h) | h)
            · exact Or.inl h
            · omega
            · omega
          · rintro (h | h)
            · exact Or.inl (Or.inl h)
            · omega
    · have hc0 : c = '0' := (hchars c (List.mem_cons_self _ _)).resolve_right hc1
      obtain ⟨r, hr, hnum, hbits⟩ := ih (i + 1) t hn hb hsize (by omega) hcs
      refine ⟨r, ?_, hnum, fun p => ?_⟩
      · simp only [Truth_Table.ofString_loop, hc1, if_false, hc0, if_true]
        simpa [hc0] using hr
      · rw [hbits p]
        simp only [List.length_cons]
        rcases Nat.lt_trichotomy p cs.length with hp | hp | hp
        · rw [hidx p hp]
          constructor
          · rintro (h | h)
            · exact Or.inl h
            · exact Or.inr ⟨by omega, h.2⟩
          · rintro (h | h)
            · exact Or.inl h
            · exact Or.inr ⟨hp, h.2⟩
        · subst hp
          rw [hlast, hc0]
          simp
        · constructor
          · rintro (h | h)
            · exact Or.inl h
            · omega
          · rintro (h | h)
            · exact Or.inl h
            · omega

theorem power_two_switch_pow (k : Nat) (hk1 : 1 ≤ k) (hk6 : k ≤ 6) :
    power_two_switch (2 ^ k) = k := by
  interval_cases k <;> rfl

/-- The string constructor on a string of `2 ^ k` characters 0 and 1, `1 <= k <= 6`. -/
theorem ofString_bits (s : String) (k : Nat) (hk1 : 1 ≤ k) (hk6 : k ≤ 6)
    (hlen : s.length = 2 ^ k) (hchars : ∀ c ∈ s.data, c = '0' ∨ c = '1') :
    ∃ t, Truth_Table.ofString s = some t ∧ t.num_var = k ∧
      ∀ p, t.bits.testBit p = true ↔ (p < s.length ∧ s.data[s.length - 1 - p]? = some '1') := by
  have h64 := two_pow_le_64 k hk6
  have hk0 : k ≠ 0 := by omega
  obtain ⟨r, hr, hnum, hbits⟩ := ofString_loop_spec s.length s.data 0 ⟨k, 0⟩ hk6
    (Nat.two_pow_pos _) (le_of_eq hlen) (Nat.zero_add _) hchars
  have hl : s.data.length = s.length := rfl
  refine ⟨r, ?_, hnum, fun p => ?_⟩
  · rw [ofString_small s (by omega), hlen, power_two_switch_pow k hk1 hk6, if_neg hk0, ← hlen]
    exact hr
  · rw [hbits p, hl]
    simp

/-- C9: for a string `s` of characters 0 and 1 of length `2 ^ k`, `1 <= k <= 6`, the string
constructor returns a table of arity `k` whose entry `len(s) - 1 - i` is 1 if and only if
`s[i]` is the character 1, for every `i < len(s)`. The string 0110 gives arity 2 with
`get_bit(0) = 0`, `get_bit(1) = 1`, `get_bit(2) = 1`, `get_bit(3) = 0`. -/
theorem ofString_entry :
    (∀ (s : String) (k : Nat), 1 ≤ k → k ≤ 6 → s.length = 2 ^ k →
      (∀ c ∈ s.data, c = '0' ∨ c = '1') →
      ∃ t, Truth_Table.ofString s = some t ∧ t.num_var = k ∧
        ∀ i, i < s.length → ∃ b, t.get_bit (s.length - 1 - i) = some b ∧
          (b = true ↔ s.data[i]? = some '1')) ∧
    (∃ t, Truth_Table.ofString "0110" = some t ∧ t.num_var = 2 ∧
      t.get_bit 0 = some false ∧ t.get_bit 1 = some true ∧
      t.get_bit 2 = some true ∧ t.get_bit 3 = some false) := by
  refine ⟨?_, ⟨⟨2, 6⟩, ofString_0110, rfl, by decide, by decide, by decide, by decide⟩⟩
  intro s k hk1 hk6 hlen hchars
  obtain ⟨t, ht, hnum, hbits⟩ := ofString_bits s k hk1 hk6 hlen hchars
  refine ⟨t, ht, hnum, fun i hi => ⟨_, get_bit_eq t _ (hnum ▸ hk6) (by rw [hnum]; omega), ?_⟩⟩
  rw [hbits]
  have hidx : s.length - 1 - (s.length - 1 - i) = i := by omega
  rw [hidx]
  constructor
  · exact fun h => h.2
  · exact fun h => ⟨by omega, h⟩

/-- C9 at the string 10 of length 2. -/
theorem ofString_entry_witness :
    ∃ t, Truth_Table.ofString "10" = some t ∧ t.num_var = 1 ∧
      ∀ i, i < "10".length → ∃ b, t.get_bit ("10".length - 1 - i) = some b ∧
        (b = true ↔ "10".data[i]? = some '1') :=
  ofString_entry.1 "10" 1 (by decide) (by decide) (by decide) (by decide)

/-- C8, the failing case: the table of arity 0 with word 1 (which `Truth_Table(0, 1)`
builds, and which satisfies the invariant) prints as the string 1, and the string
constructor turns that string into the table of arity 0 with word 0. -/
theorem roundtrip_counterexample :
    Truth_Table.ofWord 0 1 = some ⟨0, 1⟩ ∧ (Truth_Table.mk 0 1).invariant ∧
    (Truth_Table.mk 0 1).print = some "1" ∧ Truth_Table.ofString "1" = some ⟨0, 0⟩ ∧
    ¬ ((Truth_Table.mk 0 1).print.bind Truth_Table.ofString = some ⟨0, 1⟩) := by
  have h1 : Truth_Table.ofString "1" = some ⟨0, 0⟩ := by
    rw [ofString_small _ (by decide)]
    rfl
  have h2 : (Truth_Table.mk 0 1).print = some "1" := by decide
  refine ⟨by decide, by decide, h2, h1, ?_⟩
  rw [h2, Option.some_bind, h1]
  decide

/-- C8 as amended: for every table `t` satisfying the truncation invariant, other than the
table of arity 0 with word 1, printing `t` returns a string from which the string
constructor builds `t` again. -/
theorem print_ofString_roundtrip (t : Truth_Table) (hinv : t.invariant)
    (h : 1 ≤ t.num_var ∨ t.bits = 0) :
    ∃ s, t.print = some s ∧ Truth_Table.ofString s = some t := by
  obtain ⟨hn, hb⟩ := (invariant_iff t).mp hinv
  have h64 := two_pow_le_64 _ hn
  refine ⟨_, print_eq t hn, ?_⟩
  obtain ⟨n, bits⟩ := t
  simp only at hn hb h h64
  by_cases h0 : n = 0
  · subst h0
    have hbits : bits = 0 := by omega
    subst hbits
    rw [ofString_small _ (by decide)]
    rfl
  · obtain ⟨r, hr, hnum, hbits⟩ := ofString_bits
      (String.mk ((List.range (2 ^ n)).map fun i => if bits.testBit i then '1' else '0').reverse)
      n (by omega) hn (by simp) (by
        intro c hc
        simp only [List.mem_reverse, List.mem_map] at hc
        obtain ⟨i, -, rfl⟩ := hc
        cases bits.testBit i <;> simp)
    rw [hr]
    obtain ⟨rn, rbits⟩ := r
    simp only at hnum hbits
    subst hnum
    congr 2
    apply Nat.eq_of_testBit_eq
    intro p
    rw [Bool.eq_iff_iff, hbits p]
    simp only [String.length_mk, List.length_reverse, List.length_map, List.length_range]
    by_cases hp : p < 2 ^ rn
    · rw [reverse_map_range_get _ _ _ (by omega)]
      have hidx : 2 ^ rn - 1 - (2 ^ rn - 1 - p) = p := by omega
      rw [hidx]
      cases bits.testBit p <;> simp [hp]
    · rw [high_bits_zero _ _ hb p (Nat.not_lt.mp hp)]
      simp [hp]

/-- C8 as amended, at the table 0110 of arity 2. -/
theorem print_ofString_roundtrip_witness :
    ∃ s, (Truth_Table.mk 2 6).print = some s ∧ Truth_Table.ofString s = some ⟨2, 6⟩ :=
  print_ofString_roundtrip ⟨2, 6⟩ (by decide) (Or.inl (by decide))

/-! ## Algebraic laws -/

theorem table_ext (a b : Truth_Table) (hn : a.num_var = b.num_var)
    (h : ∀ i, a.bits.testBit i = b.bits.testBit i) : a = b := by
  obtain ⟨an, ab⟩ := a
  obtain ⟨bn, bb⟩ := b
  simp only at hn h
  subst hn
  rw [Nat.eq_of_testBit_eq h]

theorem operator_eq_iff (a b : Truth_Table) :
    a.operator_eq b = true ↔ a.num_var = b.num_var ∧ a.bits = b.bits := by
  unfold Truth_Table.operator_eq
  by_cases h : a.num_var = b.num_var
  · simp [h]
  · simp [h]

theorem operator_eq_refl (a : Truth_Table) : a.operator_eq a = true :=
  (operator_eq_iff a a).mpr ⟨rfl, rfl⟩

theorem operator_not_eq (t : Truth_Table) (hn : t.num_var ≤ 6) :
    t.operator_not = some ⟨t.num_var, not64 t.bits &&& (2 ^ 2 ^ t.num_var - 1)⟩ :=
  ofWord_eq _ _ hn

theorem operator_and_eq (a b : Truth_Table) (h : a.num_var = b.num_var) (hn : a.num_var ≤ 6) :
    a.operator_and b = some ⟨a.num_var, (a.bits &&& b.bits) &&& (2 ^ 2 ^ a.num_var - 1)⟩ := by
  rw [Truth_Table.operator_and, if_pos h]
  exact ofWord_eq _ _ hn

theorem operator_or_eq (a b : Truth_Table) (h : a.num_var = b.num_var) (hn : a.num_var ≤ 6) :
    a.operator_or b = some ⟨a.num_var, (a.bits ||| b.bits) &&& (2 ^ 2 ^ a.num_var - 1)⟩ := by
  rw [Truth_Table.operator_or, if_pos h]
  exact ofWord_eq _ _ hn

theorem operator_xor_eq (a b : Truth_Table) (h : a.num_var = b.num_var) (hn : a.num_var ≤ 6) :
    a.operator_xor b = some ⟨a.num_var, (a.bits ^^^ b.bits) &&& (2 ^ 2 ^ a.num_var - 1)⟩ := by
  rw [Truth_Table.operator_xor, if_pos h]
  exact ofWord_eq _ _ hn

theorem or_two_pow_idem (i v : Nat) : (i ||| 2 ^ v) ||| 2 ^ v = i ||| 2 ^ v := by
  apply Nat.eq_of_testBit_eq
  intro k
  simp only [Nat.testBit_or]
  cases i.testBit k <;> cases (2 ^ v).testBit k <;> rfl

/-- C11: for a table `t` of arity `n <= 6` satisfying the truncation invariant and
`var < n`, taking the positive cofactor of `t.positive_cofactor(var)` with respect to
`var` again returns a table equal to `t.positive_cofactor(var)`. -/
theorem positive_cofactor_idempotent (t : Truth_Table) (n var : Nat)
    (hn : t.num_var = n) (hn6 : n ≤ 6) (_hinv : t.invariant) (hv : var < n) :
    ∃ r r2, t.positive_cofactor var = some r ∧ r.positive_cofactor var = some r2 ∧
      r2 = r ∧ r2.operator_eq r = true := by
  subst hn
  obtain ⟨r, hr, hnum, hbits, hhigh⟩ := positive_cofactor_bits t var hn6 hv
  obtain ⟨r2, hr2, hnum2, hbits2, hhigh2⟩ :=
    positive_cofactor_bits r var (hnum ▸ hn6) (hnum ▸ hv)
  have heq : r2 = r := by
    apply table_ext r2 r hnum2
    intro i
    by_cases hi : i < 2 ^ t.num_var
    · have hor : i ||| 2 ^ var < 2 ^ t.num_var :=
        Nat.or_lt_two_pow hi (two_pow_var_lt _ _ hv)
      rw [hbits2 i (hnum ▸ hi), hbits _ hor, hbits i hi, or_two_pow_idem]
    · rw [hhigh2 i (hnum ▸ Nat.not_lt.mp hi), hhigh i (Nat.not_lt.mp hi)]
  exact ⟨r, r2, hr, hr2, heq, heq ▸ operator_eq_refl r2⟩

/-- C11 at the table 0110 of arity 2, variable 1. -/
theorem positive_cofactor_idempotent_witness :
    ∃ r r2, (Truth_Table.mk 2 6).positive_cofactor 1 = some r ∧
      r.positive_cofactor 1 = some r2 ∧ r2 = r ∧ r2.operator_eq r = true :=
  positive_cofactor_idempotent ⟨2, 6⟩ 2 1 rfl (by decide) (by decide) (by decide)

theorem operator_not_testBit (t : Truth_Table) (hb : t.bits < 2 ^ 64) (i : Nat) :
    (not64 t.bits &&& (2 ^ 2 ^ t.num_var - 1)).testBit i =
      (decide (i < 64) && !t.bits.testBit i && decide (i < 2 ^ t.num_var)) := by
  rw [masked_testBit, not64_testBit _ _ hb]

theorem operator_not_twice (t : Truth_Table) (hinv : t.invariant) :
    ∃ r r2, t.operator_not = some r ∧ r.operator_not = some r2 ∧
      r2.num_var = t.num_var ∧ r2.bits = t.bits ∧ r2.operator_eq t = true := by
  obtain ⟨hn, hb⟩ := (invariant_iff t).mp hinv
  have h64 := two_pow_le_64 _ hn
  have hb64 : t.bits < 2 ^ 64 := hinv.1
  have hr := operator_not_eq t hn
  have hrinv := (invariant_iff _).mp (invariant_of_masked t.num_var (not64 t.bits) hn)
  have hr2 := operator_not_eq ⟨t.num_var, not64 t.bits &&& (2 ^ 2 ^ t.num_var - 1)⟩ hn
  have hbits : (not64 (not64 t.bits &&& (2 ^ 2 ^ t.num_var - 1)) &&&
      (2 ^ 2 ^ t.num_var - 1)) = t.bits := by
    apply Nat.eq_of_testBit_eq
    intro i
    rw [masked_testBit, not64_testBit _ _ (lt_of_lt_of_le hrinv.2 (two_pow_two_pow_le _ hn)),
      operator_not_testBit t hb64 i]
    by_cases hi : i < 2 ^ t.num_var
    · have hi64 : i < 64 := by omega
      simp [hi, hi64]
    · simp [hi, high_bits_zero _ _ hb i (Nat.not_lt.mp hi)]
  exact ⟨_, _, hr, hr2, rfl, hbits, (operator_eq_iff _ _).mpr ⟨rfl, hbits⟩⟩

/-- C12: for every table `t` of the class (arity 0..6, no set bit from index `2 ^ num_var`
on), `~(~t)` returns a table with the arity and the storage word of `t`, and `==` holds
between them; this covers the table `Truth_Table(n, w)` of every arity `n <= 6` and every
64-bit word `w`. -/
theorem operator_not_involution :
    (∀ t : Truth_Table, t.invariant →
      ∃ r r2, t.operator_not = some r ∧ r.operator_not = some r2 ∧
        r2.num_var = t.num_var ∧ r2.bits = t.bits ∧ r2.operator_eq t = true) ∧
    (∀ n w, n ≤ 6 → w < 2 ^ 64 →
      ∃ t r r2, Truth_Table.ofWord n w = some t ∧ t.operator_not = some r ∧
        r.operator_not = some r2 ∧ r2 = t ∧ r2.operator_eq t = true) := by
  refine ⟨operator_not_twice, fun n w hn _ => ?_⟩
  obtain ⟨r, r2, hr, hr2, hnum, hbits, heq⟩ :=
    operator_not_twice ⟨n, w &&& (2 ^ 2 ^ n - 1)⟩ (invariant_of_masked n w hn)
  exact ⟨_, r, r2, ofWord_eq n w hn, hr, hr2,
    table_ext _ _ hnum (fun i => by rw [hbits]), heq⟩

/-- C12 at the table 0110 of arity 2. -/
theorem operator_not_involution_witness :
    ∃ r r2, (Truth_Table.mk 2 6).operator_not = some r ∧ r.operator_not = some r2 ∧
      r2.num_var = (Truth_Table.mk 2 6).num_var ∧ r2.bits = (Truth_Table.mk 2 6).bits ∧
      r2.operator_eq ⟨2, 6⟩ = true :=
  operator_not_involution.1 ⟨2, 6⟩ (by decide)

theorem and_masked_comm (x y m : Nat) : (x &&& y) &&& m = (y &&& x) &&& m := by
  rw [Nat.and_comm x y]

theorem or_masked_comm (x y m : Nat) : (x ||| y) &&& m = (y ||| x) &&& m := by
  rw [Nat.or_comm x y]

theorem and_masked_assoc (x y z m : Nat) :
    (((x &&& y) &&& m) &&& z) &&& m = (x &&& ((y &&& z) &&& m)) &&& m := by
  apply Nat.eq_of_testBit_eq
  intro i
  simp only [Nat.testBit_and]
  cases x.testBit i <;> cases y.testBit i <;> cases z.testBit i <;> cases m.testBit i <;> rfl

theorem or_masked_assoc (x y z m : Nat) :
    (((x ||| y) &&& m) ||| z) &&& m = (x ||| ((y ||| z) &&& m)) &&& m := by
  apply Nat.eq_of_testBit_eq
  intro i
  simp only [Nat.testBit_and, Nat.testBit_or]
  cases x.testBit i <;> cases y.testBit i <;> cases z.testBit i <;> cases m.testBit i <;> rfl

/-- C13: for tables `a`, `b`, `c` of the same arity `n <= 6`, `a & b == b & a`,
`a | b == b | a`, `(a & b) & c == a & (b & c)` and `(a | b) | c == a | (b | c)`; every
application returns (no arity assertion fires) and every intermediate result has arity
`n`. -/
theorem and_or_comm_assoc (a b c : Truth_Table) (n : Nat)
    (ha : a.num_var = n) (hb : b.num_var = n) (hc : c.num_var = n) (hn : n ≤ 6) :
    (∃ x y, a.operator_and b = some x ∧ b.operator_and a = some y ∧ x.num_var = n ∧
      x = y ∧ x.operator_eq y = true) ∧
    (∃ x y, a.operator_or b = some x ∧ b.operator_or a = some y ∧ x.num_var = n ∧
      x = y ∧ x.operator_eq y = true) ∧
    (∃ ab bc l r, a.operator_and b = some ab ∧ ab.num_var = n ∧
      b.operator_and c = some bc ∧ bc.num_var = n ∧
      ab.operator_and c = some l ∧ a.operator_and bc = some r ∧ l.num_var = n ∧
      l = r ∧ l.operator_eq r = true) ∧
    (∃ ab bc l r, a.operator_or b = some ab ∧ ab.num_var = n ∧
      b.operator_or c = some bc ∧ bc.num_var = n ∧
      ab.operator_or c = some l ∧ a.operator_or bc = some r ∧ l.num_var = n ∧
      l = r ∧ l.operator_eq r = true) := by
  obtain ⟨an, ab⟩ := a
  obtain ⟨bn, bb⟩ := b
  obtain ⟨cn, cb⟩ := c
  simp only at ha hb hc
  subst hc; subst hb; subst ha
  refine ⟨?_, ?_, ?_, ?_⟩
  · have h : (Truth_Table.mk an (ab &&& bb &&& (2 ^ 2 ^ an - 1))) =
        ⟨an, bb &&& ab &&& (2 ^ 2 ^ an - 1)⟩ := by rw [and_masked_comm]
    exact ⟨_, _, operator_and_eq ⟨an, ab⟩ ⟨an, bb⟩ rfl hn,
      operator_and_eq ⟨an, bb⟩ ⟨an, ab⟩ rfl hn, rfl, h, h ▸ operator_eq_refl _⟩
  · have h : (Truth_Table.mk an ((ab ||| bb) &&& (2 ^ 2 ^ an - 1))) =
        ⟨an, (bb ||| ab) &&& (2 ^ 2 ^ an - 1)⟩ := by rw [or_masked_comm]
    exact ⟨_, _, operator_or_eq ⟨an, ab⟩ ⟨an, bb⟩ rfl hn,
      operator_or_eq ⟨an, bb⟩ ⟨an, ab⟩ rfl hn, rfl, h, h ▸ operator_eq_refl _⟩
  · have h : (Truth_Table.mk an (ab &&& bb &&& (2 ^ 2 ^ an - 1) &&& cb &&& (2 ^ 2 ^ an - 1))) =
        ⟨an, ab &&& (bb &&& cb &&& (2 ^ 2 ^ an - 1)) &&& (2 ^ 2 ^ an - 1)⟩ := by
      rw [and_masked_assoc]
    exact ⟨_, _, _, _, operator_and_eq ⟨an, ab⟩ ⟨an, bb⟩ rfl hn, rfl,
      operator_and_eq ⟨an, bb⟩ ⟨an, cb⟩ rfl hn, rfl,
      operator_and_eq ⟨an, _⟩ ⟨an, cb⟩ rfl hn, operator_and_eq ⟨an, ab⟩ ⟨an, _⟩ rfl hn,
      rfl, h, h ▸ operator_eq_refl _⟩
  · have h : (Truth_Table.mk an ((((ab ||| bb) &&& (2 ^ 2 ^ an - 1)) ||| cb) &&&
        (2 ^ 2 ^ an - 1))) =
        ⟨an, (ab ||| ((bb ||| cb) &&& (2 ^ 2 ^ an - 1))) &&& (2 ^ 2 ^ an - 1)⟩ := by
      rw [or_masked_assoc]
    exact ⟨_, _, _, _, operator_or_eq ⟨an, ab⟩ ⟨an, bb⟩ rfl hn, rfl,
      operator_or_eq ⟨an, bb⟩ ⟨an, cb⟩ rfl hn, rfl,
      operator_or_eq ⟨an, _⟩ ⟨an, cb⟩ rfl hn, operator_or_eq ⟨an, ab⟩ ⟨an, _⟩ rfl hn,
      rfl, h, h ▸ operator_eq_refl _⟩

/-- C13 at the arity-2 tables 0110, 0011 and 0101. -/
theorem and_or_comm_assoc_witness :
    ∃ ab bc l r, (Truth_Table.mk 2 6).operator_or ⟨2, 3⟩ = some ab ∧ ab.num_var = 2 ∧
      (Truth_Table.mk 2 3).operator_or ⟨2, 5⟩ = some bc ∧ bc.num_var = 2 ∧
      ab.operator_or ⟨2, 5⟩ = some l ∧ (Truth_Table.mk 2 6).operator_or bc = some r ∧
      l.num_var = 2 ∧ l = r ∧ l.operator_eq r = true :=
  (and_or_comm_assoc ⟨2, 6⟩ ⟨2, 3⟩ ⟨2, 5⟩ 2 rfl rfl rfl (by decide)).2.2.2

/-- C14: `t1 == t2` is true if and only if the two tables have the same `num_var` and the
same `bits`; two tables of different arity compare unequal whatever their bits, also the
all-zero tables of arity 1 and 2; `t1 != t2` is the negation of `t1 == t2`. -/
theorem operator_eq_spec :
    (∀ t1 t2 : Truth_Table,
      (t1.operator_eq t2 = true ↔ t1.num_var = t2.num_var ∧ t1.bits = t2.bits)) ∧
    (∀ t1 t2 : Truth_Table, t1.num_var ≠ t2.num_var →
      t1.operator_eq t2 = false ∧ t1.operator_ne t2 = true) ∧
    ((Truth_Table.ofArity 1).operator_eq (Truth_Table.ofArity 2) = false) ∧
    (∀ t1 t2 : Truth_Table, t1.operator_ne t2 = !t1.operator_eq t2) := by
  refine ⟨operator_eq_iff, ?_, by decide, fun _ _ => rfl⟩
  intro t1 t2 h
  have hf : t1.operator_eq t2 = false := by
    cases hq : t1.operator_eq t2
    · rfl
    · exact absurd ((operator_eq_iff t1 t2).mp hq).1 h
  exact ⟨hf, by rw [Truth_Table.operator_ne, hf]; rfl⟩

/-- C14 at two tables of arity 2 and 3 with the same word. -/
theorem operator_eq_spec_witness :
    (Truth_Table.mk 2 6).operator_eq ⟨3, 6⟩ = false ∧
      (Truth_Table.mk 2 6).operator_ne ⟨3, 6⟩ = true :=
  operator_eq_spec.2.1 ⟨2, 6⟩ ⟨3, 6⟩ (by decide)

/-! ## Contract violations -/

/-- The loop of the string constructor does not return once a character other than 0 and 1
is among the characters still to read. -/
theorem ofString_loop_bad_char (size : Nat) (cs : List Char) :
    ∀ (i : Nat) (t : Truth_Table), (∃ c ∈ cs, c ≠ '0' ∧ c ≠ '1') →
      Truth_Table.ofString_loop size cs i t = none := by
  induction cs with
  | nil =>
    intro i t h
    obtain ⟨c, hc, -⟩ := h
    cases hc
  | cons d ds ih =>
    intro i t h
    obtain ⟨c, hc, h0, h1⟩ := h
    simp only [Truth_Table.ofString_loop]
    by_cases hd1 : d = '1'
    · have hmem : c ∈ ds := by
        rcases List.mem_cons.mp hc with h | h
        · exact absurd (h.trans hd1) h1
        · exact h
      rw [if_pos hd1]
      cases t.set_bit ((size - 1 - i) % 256) with
      | none => rfl
      | some t1 => exact ih (i + 1) t1 ⟨c, hmem, h0, h1⟩
    · rw [if_neg hd1]
      by_cases hd0 : d = '0'
      · have hmem : c ∈ ds := by
          rcases List.mem_cons.mp hc with h | h
          · exact absurd (h.trans hd0) h0
          · exact h
        rw [if_pos hd0]
        exact ih (i + 1) t ⟨c, hmem, h0, h1⟩
      · rw [if_neg hd0]

/-- C15, the failing case: the string abc contains characters other than 0 and 1, and the
string constructor returns the all-zero table of arity 0 for it (`power_two(3)` is 0, so
the constructor returns before its loop). -/
theorem ofString_bad_char_counterexample :
    (∃ c ∈ "abc".data, c ≠ '0' ∧ c ≠ '1') ∧ Truth_Table.ofString "abc" = some ⟨0, 0⟩ := by
  refine ⟨⟨'a', by decide, by decide, by decide⟩, ?_⟩
  rw [ofString_small _ (by decide)]
  rfl

/-- C15 as amended: when `power_two(str.size())` is not 0, a string that contains a
character other than 0 and 1 makes the string constructor fail; when it is 0 the
constructor returns the all-zero table of arity 0 whatever the characters are. -/
theorem ofString_bad_char :
    (∀ s : String, power_two (s.length % 2 ^ 32) ≠ 0 →
      (∃ c ∈ s.data, c ≠ '0' ∧ c ≠ '1') → Truth_Table.ofString s = none) ∧
    (∀ s : String, power_two (s.length % 2 ^ 32) = 0 →
      Truth_Table.ofString s = some ⟨0, 0⟩) := by
  constructor
  · intro s hp hbad
    simp only [Truth_Table.ofString, hp, if_false]
    exact ofString_loop_bad_char _ _ _ _ hbad
  · intro s hp
    simp only [Truth_Table.ofString, hp, if_true]

/-- C15 as amended, at the string 0a of length 2. -/
theorem ofString_bad_char_witness : Truth_Table.ofString "0a" = none :=
  ofString_bad_char.1 "0a" (by rw [power_two_small _ (by decide)]; decide)
    ⟨'a', by decide, by decide, by decide⟩

/-- C16, the failing case: the constructor from an arity alone has no check and returns a
table with `num_var = 7`. -/
theorem ofArity_counterexample :
    Truth_Table.ofArity 7 = ⟨7, 0⟩ ∧ 6 < (Truth_Table.ofArity 7).num_var := by
  exact ⟨rfl, by decide⟩

/-- C16 as amended: no constructor checks the arity. The constructor from an arity alone
returns the all-zero table with `num_var = n` for every `n`, also above 6; the constructor
from an arity and a word returns a table with `num_var = n` for every `n` in 0..6 (nothing
is stated for `n > 6`, where the source reads `length_mask` past its end); the string
constructor never returns a table with `num_var > 6` for a string of at most 64
characters. -/
theorem constructor_arity :
    (∀ n, Truth_Table.ofArity n = ⟨n, 0⟩ ∧ (Truth_Table.ofArity n).num_var = n) ∧
    (∀ n w, n ≤ 6 → ∃ t, Truth_Table.ofWord n w = some t ∧ t.num_var = n ∧ t.num_var ≤ 6) ∧
    (∀ (s : String) t, s.length ≤ 64 → Truth_Table.ofString s = some t → t.num_var ≤ 6) := by
  refine ⟨fun _ => ⟨rfl, rfl⟩, ?_, ?_⟩
  · intro n w hn
    exact ⟨_, ofWord_eq n w hn, rfl, hn⟩
  · intro s t hlen h
    have hsw : power_two_switch s.length ≤ 6 := by
      unfold power_two_switch
      split_ifs <;> omega
    rw [ofString_small s hlen] at h
    split at h
    · rw [Option.some.injEq] at h
      subst h
      exact hsw
    · rw [(ofString_loop_some _ _ _ _ _ h).1]
      exact hsw

/-- C16 as amended, at the string 0110 and at arity 2 with word 22. -/
theorem constructor_arity_witness :
    (Truth_Table.mk 2 6).num_var ≤ 6 ∧
      ∃ t, Truth_Table.ofWord 2 22 = some t ∧ t.num_var = 2 ∧ t.num_var ≤ 6 :=
  ⟨constructor_arity.2.2 "0110" ⟨2, 6⟩ (by decide) ofString_0110,
    constructor_arity.2.1 2 22 (by decide)⟩

theorem get_bit_none (t : Truth_Table) (pos : Nat) (hpos : 2 ^ t.num_var ≤ pos) :
    t.get_bit pos = none := by
  have h : ¬ (t.num_var < 31 ∧ pos < 1 <<< t.num_var ∧ pos < 64) := by
    rw [Nat.one_shiftLeft]
    omega
  simp only [Truth_Table.get_bit, h, if_false]

theorem set_bit_none (t : Truth_Table) (pos : Nat) (hpos : 2 ^ t.num_var ≤ pos) :
    t.set_bit pos = none := by
  have h : ¬ (t.num_var < 31 ∧ pos < 1 <<< t.num_var ∧ pos < 64) := by
    rw [Nat.one_shiftLeft]
    omega
  simp only [Truth_Table.set_bit, h, if_false]

/-- C17: for a table `t` of arity `n <= 6` satisfying the truncation invariant and
`pos < 2 ^ n`, `set_bit(pos)` returns a table with the same `num_var` in which
`get_bit(pos)` is true and `get_bit(q)` is as in `t` for every other `q < 2 ^ n`; `set_bit`
and `get_bit` fail exactly when `pos >= 2 ^ n`. -/
theorem set_bit_frame (t : Truth_Table) (n pos : Nat)
    (hn : t.num_var = n) (hn6 : n ≤ 6) (hinv : t.invariant) :
    (pos < 2 ^ n → ∃ r, t.set_bit pos = some r ∧ r.num_var = n ∧
      r.get_bit pos = some true ∧
      ∀ q, q < 2 ^ n → q ≠ pos → r.get_bit q = t.get_bit q) ∧
    (t.set_bit pos = none ↔ 2 ^ n ≤ pos) ∧
    (t.get_bit pos = none ↔ 2 ^ n ≤ pos) := by
  subst hn
  have hb := ((invariant_iff t).mp hinv).2
  refine ⟨fun hpos => ?_, ?_, ?_⟩
  · refine ⟨_, set_bit_eq t pos hn6 hpos, rfl, ?_, fun q hq hne => ?_⟩
    · rw [get_bit_eq ⟨t.num_var, (t.bits ||| (1 <<< pos)) &&& (2 ^ 2 ^ t.num_var - 1)⟩ pos hn6 hpos]
      exact congrArg some ((set_bit_testBit t pos pos hpos hb).mpr (Or.inr rfl))
    · rw [get_bit_eq ⟨t.num_var, (t.bits ||| (1 <<< pos)) &&& (2 ^ 2 ^ t.num_var - 1)⟩ q hn6 hq, get_bit_eq t q hn6 hq]
      refine congrArg some ?_
      rw [Bool.eq_iff_iff, set_bit_testBit t pos q hpos hb]
      exact ⟨fun h => h.resolve_right hne, Or.inl⟩
  · constructor
    · intro h
      by_contra hlt
      rw [set_bit_eq t pos hn6 (Nat.lt_of_not_le hlt)] at h
      cases h
    · exact set_bit_none t pos
  · constructor
    · intro h
      by_contra hlt
      rw [get_bit_eq t pos hn6 (Nat.lt_of_not_le hlt)] at h
      cases h
    · exact get_bit_none t pos

/-- C17 at the table 0110 of arity 2, position 0. -/
theorem set_bit_frame_witness :
    ∃ r, (Truth_Table.mk 2 6).set_bit 0 = some r ∧ r.num_var = 2 ∧
      r.get_bit 0 = some true ∧
      ∀ q, q < 2 ^ 2 → q ≠ 0 → r.get_bit q = (Truth_Table.mk 2 6).get_bit q :=
  (set_bit_frame ⟨2, 6⟩ 2 0 rfl (by decide) (by decide)).1 (by decide)

/-! ## The helper `power_two` -/

theorem power_two_switch_le (n : Nat) : power_two_switch n ≤ 6 := by
  unfold power_two_switch
  split_ifs <;> omega

theorem power_two_large (n : Nat) (h : 64 < n) :
    power_two n = (6 + power_two (n / 64)) % 256 := by
  rw [power_two, if_pos h]

theorem power_two_le (k : Nat) : ∀ n, n ≤ 64 ^ (k + 1) → power_two n ≤ 6 * (k + 1) := by
  induction k with
  | zero =>
    intro n hn
    rw [power_two_small n (by simpa using hn)]
    exact power_two_switch_le n
  | succ k ih =>
    intro n hn
    by_cases h : n ≤ 64
    · rw [power_two_small n h]
      have := power_two_switch_le n
      omega
    · rw [power_two_large n (Nat.lt_of_not_le h)]
      have hdiv : n / 64 ≤ 64 ^ (k + 1) := by
        apply Nat.div_le_of_le_mul
        rw [← Nat.pow_succ']
        exact hn
      have := ih (n / 64) hdiv
      have := Nat.mod_le (6 + power_two (n / 64)) 256
      omega

/-- Above 64 the recursion of `power_two` adds 6 and never gives 0 on a 32-bit argument. -/
theorem power_two_ge_six (n : Nat) (h : 64 < n) (h32 : n < 2 ^ 32) :
    6 ≤ power_two n ∧ power_two n ≤ 36 := by
  have hdiv : n / 64 ≤ 64 ^ (4 + 1) := by
    have : n / 64 < 2 ^ 26 := Nat.div_lt_of_lt_mul (by simpa using h32)
    exact le_of_lt (lt_of_lt_of_le this (by decide))
  have hb := power_two_le 4 (n / 64) hdiv
  rw [power_two_large n h]
  omega

/-- C18, the code at arguments above 64: `power_two(128)` is 7 and `power_two(65)` is 6,
where the claim and the comment of the function say 0; no 32-bit argument above 64 gives
0. Up to 64 the function is as claimed: `2 ^ i` gives `i` for `i <= 6` and every other
argument gives 0. -/
theorem power_two_above_64 :
    power_two 128 = 7 ∧ power_two 65 = 6 ∧
    (∀ n, 64 < n → n < 2 ^ 32 → power_two n ≠ 0) ∧
    (∀ i, i ≤ 6 → power_two (2 ^ i) = i) ∧
    (∀ n, n ≤ 64 → (∀ i, i ≤ 6 → n ≠ 2 ^ i) → power_two n = 0) := by
  refine ⟨?_, ?_, ?_, ?_, ?_⟩
  · rw [power_two_large 128 (by decide), show 128 / 64 = 2 from rfl,
      power_two_small 2 (by decide)]
    rfl
  · rw [power_two_large 65 (by decide), show 65 / 64 = 1 from rfl,
      power_two_small 1 (by decide)]
    rfl
  · intro n h h32
    have := (power_two_ge_six n h h32).1
    omega
  · intro i hi
    rw [power_two_small _ (two_pow_le_64 i hi)]
    interval_cases i <;> rfl
  · intro n hn hne
    rw [power_two_small n hn]
    unfold power_two_switch
    have h1 := hne 1 (by decide)
    have h2 := hne 2 (by decide)
    have h3 := hne 3 (by decide)
    have h4 := hne 4 (by decide)
    have h5 := hne 5 (by decide)
    have h6 := hne 6 (by decide)
    simp only [Nat.reducePow] at h1 h2 h3 h4 h5 h6
    simp only [h1, h2, h3, h4, h5, h6, if_false]

theorem ofString_loop_zeros (size k : Nat) :
    ∀ (i : Nat) (t : Truth_Table),
      Truth_Table.ofString_loop size (List.replicate k '0') i t = some t := by
  induction k with
  | zero => exact fun _ _ => rfl
  | succ k ih =>
    intro i t
    have h01 : ¬ ('0' = '1') := by decide
    simp only [List.replicate_succ, Truth_Table.ofString_loop, h01, if_false, if_true]
    exact ih (i + 1) t

/-- The slip of `power_two` above 64 reaches the string constructor: 128 characters 0 give
a table with `num_var = 7`. -/
theorem ofString_128_zeros :
    Truth_Table.ofString (String.mk (List.replicate 128 '0')) = some ⟨7, 0⟩ := by
  have hlen : (String.mk (List.replicate 128 '0')).length = 128 := by
    rw [String.length_mk, List.length_replicate]
  have hp : power_two 128 = 7 := by
    rw [power_two_large 128 (by decide), show 128 / 64 = 2 from rfl,
      power_two_small 2 (by decide)]
    rfl
  have h7 : ¬ (7 = 0) := by decide
  simp only [Truth_Table.ofString, hlen, show 128 % 2 ^ 32 = 128 from rfl, hp, h7, if_false]
  exact ofString_loop_zeros 128 128 0 ⟨7, 0⟩

/-! ## Shannon expansion and quantifier duality -/

theorem table_eq_of_bits (l r : Truth_Table) (n : Nat) (f : Nat → Bool)
    (hl : l.num_var = n) (hr : r.num_var = n)
    (hlb : ∀ i, i < 2 ^ n → l.bits.testBit i = f i)
    (hlh : ∀ i, 2 ^ n ≤ i → l.bits.testBit i = false)
    (hrb : ∀ i, i < 2 ^ n → r.bits.testBit i = f i)
    (hrh : ∀ i, 2 ^ n ≤ i → r.bits.testBit i = false) : l = r := by
  apply table_ext l r (hl.trans hr.symm)
  intro i
  by_cases hi : i < 2 ^ n
  · rw [hlb i hi, hrb i hi]
  · rw [hlh i (Nat.not_lt.mp hi), hrh i (Nat.not_lt.mp hi)]

theorem bits_lt_of_high_bits (r : Truth_Table) (hn : r.num_var ≤ 6)
    (h : ∀ i, 2 ^ r.num_var ≤ i → r.bits.testBit i = false) : r.bits < 2 ^ 64 :=
  lt_of_lt_of_le (Nat.lt_pow_two_of_testBit _ h) (two_pow_two_pow_le _ hn)

/-- What `create_tt_nth_var` returns for an arity at most 6. -/
theorem create_tt_nth_var_bits (n var : Nat) (p : Bool) (hn6 : n ≤ 6) (hv : var < n) :
    ∃ r, create_tt_nth_var n var p = some r ∧ r.num_var = n ∧
      (∀ i, i < 2 ^ n → r.bits.testBit i = (i.testBit var == p)) ∧
      (∀ i, 2 ^ n ≤ i → r.bits.testBit i = false) := by
  have h64 := two_pow_le_64 n hn6
  obtain ⟨mp, hmp, -, hbp⟩ := var_mask_pos_spec var (by omega)
  obtain ⟨mn, hmn, -, hbn⟩ := var_mask_neg_spec var (by omega)
  cases p
  · refine ⟨⟨n, mn &&& (2 ^ 2 ^ n - 1)⟩, ?_, rfl, fun i hi => ?_, fun i hi => ?_⟩
    · simp only [create_tt_nth_var, hv, if_true, hmn, Bool.false_eq_true, if_false]
      exact ofWord_eq _ _ hn6
    · have hi64 : i < 64 := by omega
      rw [masked_testBit, hbn]
      cases i.testBit var <;> simp [hi, hi64]
    · rw [masked_testBit]
      simp [Nat.not_lt.mpr hi]
  · refine ⟨⟨n, mp &&& (2 ^ 2 ^ n - 1)⟩, ?_, rfl, fun i hi => ?_, fun i hi => ?_⟩
    · simp only [create_tt_nth_var, hv, if_true, hmp]
      exact ofWord_eq _ _ hn6
    · have hi64 : i < 64 := by omega
      rw [masked_testBit, hbp]
      cases i.testBit var <;> simp [hi, hi64]
    · rw [masked_testBit]
      simp [Nat.not_lt.mpr hi]

/-- What `operator~` returns on a table of arity at most 6 with a 64-bit word. -/
theorem operator_not_bits (t : Truth_Table) (hn : t.num_var ≤ 6) (hb : t.bits < 2 ^ 64) :
    ∃ r, t.operator_not = some r ∧ r.num_var = t.num_var ∧
      (∀ i, i < 2 ^ t.num_var → r.bits.testBit i = !t.bits.testBit i) ∧
      (∀ i, 2 ^ t.num_var ≤ i → r.bits.testBit i = false) := by
  have h64 := two_pow_le_64 _ hn
  refine ⟨_, operator_not_eq t hn, rfl, fun i hi => ?_, fun i hi => ?_⟩
  · have hi64 : i < 64 := by omega
    rw [operator_not_testBit t hb i]
    simp [hi, hi64]
  · rw [operator_not_testBit t hb i]
    simp [Nat.not_lt.mpr hi]

/-- C19: Shannon expansion. For a table `t` of arity `n`, `1 <= n <= 6`, satisfying the
truncation invariant and `var < n`,
`(create_tt_nth_var(n, var, true) & t.positive_cofactor(var)) |
(create_tt_nth_var(n, var, false) & t.negative_cofactor(var))` returns a table equal to
`t`. -/
theorem shannon_expansion (t : Truth_Table) (n var : Nat)
    (hn : t.num_var = n) (_hn1 : 1 ≤ n) (hn6 : n ≤ 6) (hinv : t.invariant) (hv : var < n) :
    ∃ x p a y q b r, create_tt_nth_var n var true = some x ∧
      t.positive_cofactor var = some p ∧ x.operator_and p = some a ∧
      create_tt_nth_var n var false = some y ∧
      t.negative_cofactor var = some q ∧ y.operator_and q = some b ∧
      a.operator_or b = some r ∧ r = t ∧ r.operator_eq t = true := by
  subst hn
  have hb := ((invariant_iff t).mp hinv).2
  have h64 := two_pow_le_64 _ hn6
  obtain ⟨x, hx, hxn, hxb, -⟩ := create_tt_nth_var_bits t.num_var var true hn6 hv
  obtain ⟨y, hy, hyn, hyb, -⟩ := create_tt_nth_var_bits t.num_var var false hn6 hv
  obtain ⟨p, hp, hpn, hpb, -⟩ := positive_cofactor_bits t var hn6 hv
  obtain ⟨q, hq, hqn, hqb, -⟩ := negative_cofactor_bits t var hn6 hv
  have ha := operator_and_eq x p (hxn.trans hpn.symm) (hxn ▸ hn6)
  have hb2 := operator_and_eq y q (hyn.trans hqn.symm) (hyn ▸ hn6)
  rw [hxn] at ha
  rw [hyn] at hb2
  have hr := operator_or_eq
    ⟨t.num_var, (x.bits &&& p.bits) &&& (2 ^ 2 ^ t.num_var - 1)⟩
    ⟨t.num_var, (y.bits &&& q.bits) &&& (2 ^ 2 ^ t.num_var - 1)⟩ rfl hn6
  have heq : (Truth_Table.mk t.num_var
      ((((x.bits &&& p.bits) &&& (2 ^ 2 ^ t.num_var - 1)) |||
        ((y.bits &&& q.bits) &&& (2 ^ 2 ^ t.num_var - 1))) &&& (2 ^ 2 ^ t.num_var - 1))) = t := by
    refine table_ext (Truth_Table.mk t.num_var _) t rfl (fun i => ?_)
    simp only [masked_testBit, Nat.testBit_or, Nat.testBit_and]
    by_cases hi : i < 2 ^ t.num_var
    · obtain ⟨h1, h2, -, -, -, -, -⟩ := index_facts var (by omega) i (by omega)
      rw [hxb i hi, hyb i hi, hpb i hi, hqb i hi, h1, h2]
      cases hv1 : i.testBit var <;> simp [hi]
    · simp [hi, high_bits_zero _ _ hb i (Nat.not_lt.mp hi)]
  exact ⟨x, p, _, y, q, _, _, hx, hp, ha, hy, hq, hb2, hr, heq, heq ▸ operator_eq_refl _⟩

/-- C19 at the table 0110 of arity 2, variable 1. -/
theorem shannon_expansion_witness :
    ∃ x p a y q b r, create_tt_nth_var 2 1 true = some x ∧
      (Truth_Table.mk 2 6).positive_cofactor 1 = some p ∧ x.operator_and p = some a ∧
      create_tt_nth_var 2 1 false = some y ∧
      (Truth_Table.mk 2 6).negative_cofactor 1 = some q ∧ y.operator_and q = some b ∧
      a.operator_or b = some r ∧ r = ⟨2, 6⟩ ∧ r.operator_eq ⟨2, 6⟩ = true :=
  shannon_expansion ⟨2, 6⟩ 2 1 rfl (by decide) (by decide) (by decide) (by decide)

/-- C20: quantifier duality. For a table `t` of arity `n`, `1 <= n <= 6`, satisfying the
truncation invariant and `var < n`: `(~t).consensus(var) == ~(t.smoothing(var))`,
`(~t).smoothing(var) == ~(t.consensus(var))`, and complement commutes with the positive and
with the negative cofactor. -/
theorem quantifier_duality (t : Truth_Table) (n var : Nat)
    (hn : t.num_var = n) (_hn1 : 1 ≤ n) (hn6 : n ≤ 6) (hinv : t.invariant) (hv : var < n) :
    ∃ nt, t.operator_not = some nt ∧
      (∃ l s r, nt.consensus var = some l ∧ t.smoothing var = some s ∧
        s.operator_not = some r ∧ l = r ∧ l.operator_eq r = true) ∧
      (∃ l c r, nt.smoothing var = some l ∧ t.consensus var = some c ∧
        c.operator_not = some r ∧ l = r ∧ l.operator_eq r = true) ∧
      (∃ l p r, nt.positive_cofactor var = some l ∧ t.positive_cofactor var = some p ∧
        p.operator_not = some r ∧ l = r ∧ l.operator_eq r = true) ∧
      (∃ l q r, nt.negative_cofactor var = some l ∧ t.negative_cofactor var = some q ∧
        q.operator_not = some r ∧ l = r ∧ l.operator_eq r = true) := by
  subst hn
  have hp2 := two_pow_var_lt _ _ hv
  have hor : ∀ i, i < 2 ^ t.num_var → i ||| 2 ^ var < 2 ^ t.num_var :=
    fun i hi => Nat.or_lt_two_pow hi hp2
  have hand : ∀ i, i < 2 ^ t.num_var → i &&& not64 (2 ^ var) < 2 ^ t.num_var :=
    fun i hi => lt_of_le_of_lt Nat.and_le_left hi
  obtain ⟨nt, hnt, hntn, hntb, -⟩ := operator_not_bits t hn6 hinv.1
  have hn6' : nt.num_var ≤ 6 := hntn ▸ hn6
  have hv' : var < nt.num_var := hntn ▸ hv
  refine ⟨nt, hnt, ?_, ?_, ?_, ?_⟩
  · obtain ⟨l, hl, hln, hlb, hlh⟩ := consensus_bits nt var hn6' hv'
    obtain ⟨s, hs, hsn, hsb, hsh⟩ := smoothing_bits t var hn6 hv
    obtain ⟨r, hr, hrn, hrb, hrh⟩ :=
      operator_not_bits s (hsn ▸ hn6) (bits_lt_of_high_bits s (hsn ▸ hn6) (hsn ▸ hsh))
    rw [hntn] at hln hlb hlh
    rw [hsn] at hrn hrb hrh
    have heq : l = r := by
      refine table_eq_of_bits l r t.num_var
        (fun i => !(t.bits.testBit (i ||| 2 ^ var) || t.bits.testBit (i &&& not64 (2 ^ var))))
        hln hrn (fun i hi => ?_) hlh (fun i hi => ?_) hrh
      · rw [hlb i hi, hntb _ (hor i hi), hntb _ (hand i hi)]
        exact (Bool.not_or _ _).symm
      · rw [hrb i hi, hsb i hi]
    exact ⟨l, s, r, hl, hs, hr, heq, heq ▸ operator_eq_refl l⟩
  · obtain ⟨l, hl, hln, hlb, hlh⟩ := smoothing_bits nt var hn6' hv'
    obtain ⟨c, hc, hcn, hcb, hch⟩ := consensus_bits t var hn6 hv
    obtain ⟨r, hr, hrn, hrb, hrh⟩ :=
      operator_not_bits c (hcn ▸ hn6) (bits_lt_of_high_bits c (hcn ▸ hn6) (hcn ▸ hch))
    rw [hntn] at hln hlb hlh
    rw [hcn] at hrn hrb hrh
    have heq : l = r := by
      refine table_eq_of_bits l r t.num_var
        (fun i => !(t.bits.testBit (i ||| 2 ^ var) && t.bits.testBit (i &&& not64 (2 ^ var))))
        hln hrn (fun i hi => ?_) hlh (fun i hi => ?_) hrh
      · rw [hlb i hi, hntb _ (hor i hi), hntb _ (hand i hi)]
        exact (Bool.not_and _ _).symm
      · rw [hrb i hi, hcb i hi]
    exact ⟨l, c, r, hl, hc, hr, heq, heq ▸ operator_eq_refl l⟩
  · obtain ⟨l, hl, hln, hlb, hlh⟩ := positive_cofactor_bits nt var hn6' hv'
    obtain ⟨p, hp, hpn, hpb, hph⟩ := positive_cofactor_bits t var hn6 hv
    obtain ⟨r, hr, hrn, hrb, hrh⟩ :=
      operator_not_bits p (hpn ▸ hn6) (bits_lt_of_high_bits p (hpn ▸ hn6) (hpn ▸ hph))
    rw [hntn] at hln hlb hlh
    rw [hpn] at hrn hrb hrh
    have heq : l = r := by
      refine table_eq_of_bits l r t.num_var (fun i => !t.bits.testBit (i ||| 2 ^ var))
        hln hrn (fun i hi => ?_) hlh (fun i hi => ?_) hrh
      · rw [hlb i hi, hntb _ (hor i hi)]
      · rw [hrb i hi, hpb i hi]
    exact ⟨l, p, r, hl, hp, hr, heq, heq ▸ operator_eq_refl l⟩
  · obtain ⟨l, hl, hln, hlb, hlh⟩ := negative_cofactor_bits nt var hn6' hv'
    obtain ⟨q, hq, hqn, hqb, hqh⟩ := negative_cofactor_bits t var hn6 hv
    obtain ⟨r, hr, hrn, hrb, hrh⟩ :=
      operator_not_bits q (hqn ▸ hn6) (bits_lt_of_high_bits q (hqn ▸ hn6) (hqn ▸ hqh))
    rw [hntn] at hln hlb hlh
    rw [hqn] at hrn hrb hrh
    have heq : l = r := by
      refine table_eq_of_bits l r t.num_var (fun i => !t.bits.testBit (i &&& not64 (2 ^ var)))
        hln hrn (fun i hi => ?_) hlh (fun i hi => ?_) hrh
      · rw [hlb i hi, hntb _ (hand i hi)]
      · rw [hrb i hi, hqb i hi]
    exact ⟨l, q, r, hl, hq, hr, heq, heq ▸ operator_eq_refl l⟩

/-- C20 at the table 0110 of arity 2, variable 0. -/
theorem quantifier_duality_witness :
    ∃ nt, (Truth_Table.mk 2 6).operator_not = some nt ∧
      (∃ l s r, nt.consensus 0 = some l ∧ (Truth_Table.mk 2 6).smoothing 0 = some s ∧
        s.operator_not = some r ∧ l = r ∧ l.operator_eq r = true) ∧
      (∃ l c r, nt.smoothing 0 = some l ∧ (Truth_Table.mk 2 6).consensus 0 = some c ∧
        c.operator_not = some r ∧ l = r ∧ l.operator_eq r = true) ∧
      (∃ l p r, nt.positive_cofactor 0 = some l ∧
        (Truth_Table.mk 2 6).positive_cofactor 0 = some p ∧
        p.operator_not = some r ∧ l = r ∧ l.operator_eq r = true) ∧
      (∃ l q r, nt.negative_cofactor 0 = some l ∧
        (Truth_Table.mk 2 6).negative_cofactor 0 = some q ∧
        q.operator_not = some r ∧ l = r ∧ l.operator_eq r = true) :=
  quantifier_duality ⟨2, 6⟩ 2 0 rfl (by decide) (by decide) (by decide) (by decide)

end BDD
